import Mathlib

/-!
Verification of the sweep/builder layer and NURBS evaluation of the truck
B-rep kernel (src/truck-modeling/src/builder.rs and
src/truck-geometry/src/nurbs/mod.rs).

Floating-point scalars (f64) are embedded as exact fractions (`Fr`, an
integer numerator over a positive integer denominator, compared by
cross-multiplication, kept unreduced so that every arithmetic operation is
a structural computation).  Points produced by rotational transforms, whose
coordinates are transcendental, are kept as symbolic expression nodes.  The
process-wide tolerance constant and the f64 value of pi are embedded as
exact fractions.
-/

/-- An exact fraction: the embedding of an f64 scalar.  Every finite f64 is
such a fraction; operations are performed without reduction so that they
are plain integer computations.  All constructed values keep a positive
denominator. -/
structure Fr where
  num : ℤ
  den : ℤ
deriving DecidableEq, Repr

instance : OfNat Fr n := ⟨⟨n, 1⟩⟩

/-- Addition of fractions. -/
def Fr.add (a b : Fr) : Fr := ⟨a.num * b.den + b.num * a.den, a.den * b.den⟩

instance : Add Fr := ⟨Fr.add⟩

/-- Subtraction of fractions. -/
def Fr.sub (a b : Fr) : Fr := ⟨a.num * b.den - b.num * a.den, a.den * b.den⟩

instance : Sub Fr := ⟨Fr.sub⟩

/-- Multiplication of fractions. -/
def Fr.mul (a b : Fr) : Fr := ⟨a.num * b.num, a.den * b.den⟩

instance : Mul Fr := ⟨Fr.mul⟩

/-- Negation of a fraction. -/
def Fr.neg (a : Fr) : Fr := ⟨-a.num, a.den⟩

instance : Neg Fr := ⟨Fr.neg⟩

/-- Division of fractions, transferring the divisor's sign so the
denominator stays positive (division by a zero divisor is garbage, as is
f64 division by zero; every modelled division is guarded). -/
def Fr.div (a b : Fr) : Fr :=
  if 0 ≤ b.num then ⟨a.num * b.den, a.den * b.num⟩ else ⟨-(a.num * b.den), -(a.den * b.num)⟩

instance : Div Fr := ⟨Fr.div⟩

/-- Absolute value of a fraction. -/
def Fr.absF (a : Fr) : Fr := ⟨|a.num|, |a.den|⟩

/-- Comparison of fractions by cross-multiplication (exact for positive
denominators, as maintained by all modelled computations). -/
def Fr.leB (a b : Fr) : Bool := decide (a.num * b.den ≤ b.num * a.den)

/-- Strict comparison by cross-multiplication. -/
def Fr.ltB (a b : Fr) : Bool := decide (a.num * b.den < b.num * a.den)

/-- Semantic equality of fractions by cross-multiplication. -/
def Fr.beqB (a b : Fr) : Bool := decide (a.num * b.den = b.num * a.den)

/-- Process-wide tolerance constant, `truck_base::tolerance::TOLERANCE = 1e-7`. -/
def TOL : Fr := ⟨1, 10000000⟩

/-- The exact value of the f64 constant `std::f64::consts::PI`. -/
def piF : Fr := ⟨884279719003555, 281474976710656⟩

/-- Scalar `so_small` predicate: absolute value within tolerance
(`truck_base`: `abs_diff_eq(&0.0, TOLERANCE)`). -/
def soSmall (x : Fr) : Bool := x.absF.leB TOL

/-- Three dimensional vector of exact scalars, modelling `Vector3`/`Point3`. -/
structure Vec3 where
  x : Fr
  y : Fr
  z : Fr
deriving DecidableEq, Repr

/-- Componentwise subtraction of vectors. -/
def Vec3.sub (a b : Vec3) : Vec3 := ⟨a.x - b.x, a.y - b.y, a.z - b.z⟩

/-- Componentwise addition of vectors. -/
def Vec3.add (a b : Vec3) : Vec3 := ⟨a.x + b.x, a.y + b.y, a.z + b.z⟩

/-- Scalar multiplication of a vector. -/
def Vec3.smul (c : Fr) (a : Vec3) : Vec3 := ⟨c * a.x, c * a.y, c * a.z⟩

/-- Cross product, as `Vector3::cross`. -/
def Vec3.cross (a b : Vec3) : Vec3 :=
  ⟨a.y * b.z - a.z * b.y, a.z * b.x - a.x * b.z, a.x * b.y - a.y * b.x⟩

/-- Dot product. -/
def Vec3.dot (a b : Vec3) : Fr := a.x * b.x + a.y * b.y + a.z * b.z

/-- Vector `so_small`: every component within tolerance (componentwise
`abs_diff_eq` against the zero vector, as in `truck_base`). -/
def Vec3.soSmallV (a : Vec3) : Bool := soSmall a.x && soSmall a.y && soSmall a.z

/-- Semantic equality of vectors. -/
def Vec3.beqV (a b : Vec3) : Bool := a.x.beqB b.x && a.y.beqB b.y && a.z.beqB b.z

/-- Semantic zero test of a vector. -/
def Vec3.isZeroV (a : Vec3) : Bool :=
  decide (a.x.num = 0) && decide (a.y.num = 0) && decide (a.z.num = 0)

/-- A point of 3-space.  `base` is an explicitly given point; `translated`
and `rotated` are the images of a point under the translation and
rotation-about-an-axis transforms used by the sweep layer
(`Matrix4::from_translation`, and the composite `mat2 * mat1 * mat0`
rotation about an axis through an origin built by `rsweep`/`rotated`), kept
symbolic because rotation by a generic angle has transcendental
coordinates. -/
inductive Pt where
  | base (v : Vec3)
  | translated (v : Vec3) (p : Pt)
  | rotated (origin : Pt) (axis : Vec3) (angle : Fr) (p : Pt)
deriving DecidableEq, Repr

/-- Evaluate a point to explicit coordinates when it is explicitly given. -/
def Pt.toVec : Pt → Option Vec3
  | .base v => some v
  | .translated _ _ => none
  | .rotated _ _ _ _ => none

/-- A homogeneous (weighted) control point, modelling `Vector4`.
`base4` is an explicit homogeneous point; `lifted` is a 3D point lifted
with weight 1 (the lifting used by `lift_up`); the two map nodes are
symbolic images under the sweep transforms, as for `Pt`. -/
inductive HPt where
  | base4 (x y z w : Fr)
  | lifted (p : Pt)
  | translatedH (v : Vec3) (h : HPt)
  | rotatedH (origin : Pt) (axis : Vec3) (angle : Fr) (h : HPt)
deriving DecidableEq, Repr

/-- Guarded reciprocal (src/truck-geometry/src/nurbs/mod.rs, `inv_or_zero`):
returns `0` instead of dividing when the denominator is within tolerance.
This is the plain-fraction version used where the result is consumed by
further exact arithmetic. -/
def invOrZero (delta : Fr) : Fr := if soSmall delta then 0 else 1 / delta

/-- Rational projection of a homogeneous point: spatial components divided by
the weight through the epsilon guard.  Modelled from the spec: the
`to_point` projection of the nurbs layer (source submodules not under src/)
divides by the weight with the `inv_or_zero` guard.  On symbolic points the
projection is deferred through the corresponding symbolic node. -/
def HPt.toPoint : HPt → Pt
  | .base4 x y z w => .base ⟨x * invOrZero w, y * invOrZero w, z * invOrZero w⟩
  | .lifted p => p
  | .translatedH v h => .translated v h.toPoint
  | .rotatedH o ax a h => .rotated o ax a h.toPoint

/-- A (point-valued) B-spline curve: a knot vector and control points
(`BSplineCurve<P>` of src/truck-geometry/src/nurbs/mod.rs). -/
structure BSC where
  knots : List Fr
  ctrl : List Pt
deriving DecidableEq, Repr

/-- A homogeneous B-spline curve (the underlying curve of `NurbsCurve`):
`explicitH` is given by knot vector and homogeneous control points; `ofArc`
is the rational circular-arc curve produced by `geom_impls::circle_arc`
(source not under src/), kept opaque: the arc from `p` revolved about the
axis through `origin` by `angle`.  The `inv` flag records curve inversion. -/
inductive HBsp where
  | explicitH (knots : List Fr) (ctrl : List HPt)
  | ofArc (p origin : Pt) (axis : Vec3) (angle : Fr) (inv : Bool)
deriving DecidableEq, Repr

/-- Knot vector of a homogeneous B-spline (empty for the opaque arc). -/
def HBsp.knots : HBsp → List Fr
  | .explicitH ks _ => ks
  | .ofArc _ _ _ _ _ => []

/-- Control points of a homogeneous B-spline (empty for the opaque arc). -/
def HBsp.ctrl : HBsp → List HPt
  | .explicitH _ cs => cs
  | .ofArc _ _ _ _ _ => []

/-- The tagged curve union handed to the topology layer
(`Curve` of truck-modeling, matched in `builder::tsweep`):
lines, B-spline curves, NURBS curves and the (unimplemented in sweep paths)
intersection curves.  `geom_impls::circle_arc` produces a NURBS curve; it is
kept as the opaque `HBsp.ofArc` payload of `NurbsCurve`. -/
inductive Curve where
  | Line (p q : Pt)
  | BSplineCurve (c : BSC)
  | NurbsCurve (c : HBsp)
  | IntersectionCurve
deriving DecidableEq, Repr

/-- The circular arc of `geom_impls::circle_arc(pt, origin, axis, angle)`
as a curve: a NURBS curve kept opaque. -/
def Curve.circleArc (p origin : Pt) (axis : Vec3) (angle : Fr) : Curve :=
  .NurbsCurve (.ofArc p origin axis angle false)

/-- Image of a curve under translation (the `curve.transformed(trsl)` closure
of `tsweep`): endpoints and control points are mapped; the opaque arc keeps
its construction data mapped. -/
def Curve.translatedC (v : Vec3) : Curve → Curve
  | .Line p q => .Line (.translated v p) (.translated v q)
  | .BSplineCurve c => .BSplineCurve ⟨c.knots, c.ctrl.map (Pt.translated v)⟩
  | .NurbsCurve (.explicitH ks cs) => .NurbsCurve (.explicitH ks (cs.map (HPt.translatedH v)))
  | .NurbsCurve (.ofArc p o ax a i) =>
      .NurbsCurve (.ofArc (.translated v p) (.translated v o) ax a i)
  | .IntersectionCurve => .IntersectionCurve

/-- Image of a curve under rotation about an axis through an origin (the
`curve.transformed(trsl)` closure of `rsweep`/`rotated`). -/
def Curve.rotatedC (origin : Pt) (axis : Vec3) (angle : Fr) : Curve → Curve
  | .Line p q => .Line (.rotated origin axis angle p) (.rotated origin axis angle q)
  | .BSplineCurve c => .BSplineCurve ⟨c.knots, c.ctrl.map (Pt.rotated origin axis angle)⟩
  | .NurbsCurve (.explicitH ks cs) =>
      .NurbsCurve (.explicitH ks (cs.map (HPt.rotatedH origin axis angle)))
  | .NurbsCurve (.ofArc p o ax a i) =>
      .NurbsCurve (.ofArc (.rotated origin axis angle p) (.rotated origin axis angle o) ax a i)
  | .IntersectionCurve => .IntersectionCurve

/-- Inversion of a knot vector: the domain is reflected
(`KnotVec::invert`: new knot `a + b - u` in reversed order). -/
def invertKnots (ks : List Fr) : List Fr :=
  let a := ks.headD 0
  let b := ks.getLastD 0
  (ks.map (fun u => a + b - u)).reverse

/-- Curve inversion (`Curve::inverse`): a line swaps its endpoints, a
B-spline reverses its control points over the inverted knot vector, the
opaque arc records inversion in its flag. -/
def Curve.inverse : Curve → Curve
  | .Line p q => .Line q p
  | .BSplineCurve c => .BSplineCurve ⟨invertKnots c.knots, c.ctrl.reverse⟩
  | .NurbsCurve (.explicitH ks cs) => .NurbsCurve (.explicitH (invertKnots ks) cs.reverse)
  | .NurbsCurve (.ofArc p o ax a i) => .NurbsCurve (.ofArc p o ax a (!i))
  | .IntersectionCurve => .IntersectionCurve

/-- Parameter range of a curve (`range_tuple`): a line is parametrized over
the unit interval, a B-spline over its knot domain; the opaque curves are
given the unit interval. -/
def Curve.rangeTuple : Curve → Fr × Fr
  | .Line _ _ => (0, 1)
  | .BSplineCurve c => (c.knots.headD 0, c.knots.getLastD 0)
  | .NurbsCurve (.explicitH ks _) => (ks.headD 0, ks.getLastD 0)
  | .NurbsCurve (.ofArc _ _ _ _ _) => (0, 1)
  | .IntersectionCurve => (0, 1)

/-- Indexing into a knot vector, out-of-range reading zero. -/
def knotAt (ks : List Fr) (i : ℕ) : Fr := ks.getD i 0

/-- Modelled from the spec: B-spline basis functions by the Cox-de Boor
blending recurrence of section 4.2 (the evaluation submodule of
truck-geometry is not under src/); reciprocals of knot differences go
through the `inv_or_zero` guard as in the source's shared helper. -/
def bspBasis (ks : List Fr) : ℕ → ℕ → Fr → Fr
  | 0, i, t => if (knotAt ks i).leB t && t.ltB (knotAt ks (i + 1)) then 1 else 0
  | d + 1, i, t =>
      (t - knotAt ks i) * invOrZero (knotAt ks (i + d + 1) - knotAt ks i) * bspBasis ks d i t
      + (knotAt ks (i + d + 2) - t) * invOrZero (knotAt ks (i + d + 2) - knotAt ks (i + 1))
        * bspBasis ks d (i + 1) t

/-- Degree of a B-spline: knot count minus control-point count minus 1. -/
def bspDegree (ks : List Fr) (n : ℕ) : ℕ := ks.length - n - 1

/-- Evaluate the list of explicit coordinates of a point list, failing if any
point is symbolic. -/
def allVecs (ps : List Pt) : Option (List Vec3) := ps.mapM Pt.toVec

/-- Explicit homogeneous coordinates of a control point, when available. -/
def HPt.toVec4 : HPt → Option (Fr × Fr × Fr × Fr)
  | .base4 x y z w => some (x, y, z, w)
  | .lifted p => p.toVec.map (fun v => (v.x, v.y, v.z, 1))
  | .translatedH _ _ => none
  | .rotatedH _ _ _ _ => none

/-- B-spline evaluation over explicit points: blend the control points by
the basis functions (spec section 4.2). -/
def bspEval (ks : List Fr) (ctrl : List Vec3) (t : Fr) : Vec3 :=
  let d := bspDegree ks ctrl.length
  (List.range ctrl.length).foldl
    (fun acc i => acc.add ((ctrl.getD i ⟨0, 0, 0⟩).smul (bspBasis ks d i t))) ⟨0, 0, 0⟩

/-- Homogeneous B-spline evaluation over explicit 4-vectors. -/
def bspEval4 (ks : List Fr) (ctrl : List (Fr × Fr × Fr × Fr)) (t : Fr) : Fr × Fr × Fr × Fr :=
  let d := bspDegree ks ctrl.length
  (List.range ctrl.length).foldl
    (fun acc i =>
      let c := ctrl.getD i (0, 0, 0, 0)
      let b := bspBasis ks d i t
      (acc.1 + b * c.1, acc.2.1 + b * c.2.1, acc.2.2.1 + b * c.2.2.1, acc.2.2.2 + b * c.2.2.2))
    (0, 0, 0, 0)

/-- Curve evaluation (`subs`).  A line interpolates its endpoints; B-spline
and NURBS curves with explicit control points evaluate by the blending
recurrence, the NURBS projection going through the `inv_or_zero` guard.
Curves with symbolic control points (images of rotations) keep their first
point as an unevaluated stand-in: no claim inspects those values. -/
def Curve.subs (c : Curve) (t : Fr) : Pt :=
  match c with
  | .Line p q =>
      match p.toVec, q.toVec with
      | some a, some b => .base (a.add ((b.sub a).smul t))
      | _, _ => p
  | .BSplineCurve bc =>
      match allVecs bc.ctrl with
      | some vs => .base (bspEval bc.knots vs t)
      | none => bc.ctrl.headD (.base ⟨0, 0, 0⟩)
  | .NurbsCurve (.explicitH ks cs) =>
      match cs.mapM HPt.toVec4 with
      | some vs =>
          let h := bspEval4 ks vs t
          (HPt.base4 h.1 h.2.1 h.2.2.1 h.2.2.2).toPoint
      | none => (cs.headD (.base4 0 0 0 1)).toPoint
  | .NurbsCurve (.ofArc p _ _ _ _) => p
  | .IntersectionCurve => .base ⟨0, 0, 0⟩

/-- Index of the knot span containing `t`: number of knots not exceeding `t`,
minus one. -/
def spanIdx (ks : List Fr) (t : Fr) : ℕ := (ks.filter (fun u => u.leB t)).length - 1

/-- Modelled from the spec: Boehm-style single knot insertion of section 4.1
(the knot-vector submodule is not under src/).  Generic over the control
point type through an affine combination `comb a x y = a x + (1 - a) y`.
Returns the longer knot vector and the larger control net representing the
same curve. -/
def insertKnot (d : ℕ) (ks : List Fr) (ctrl : List α) (comb : Fr → α → α → α) (dflt : α)
    (t : Fr) : List Fr × List α :=
  let k := spanIdx ks t
  let newKs := ks.take (k + 1) ++ t :: ks.drop (k + 1)
  let newCtrl := (List.range (ctrl.length + 1)).map (fun i =>
    if i + d ≤ k then ctrl.getD i dflt
    else if k < i then ctrl.getD (i - 1) dflt
    else
      comb ((t - knotAt ks i) * invOrZero (knotAt ks (i + d) - knotAt ks i))
        (ctrl.getD i dflt) (ctrl.getD (i - 1) dflt))
  (newKs, newCtrl)

/-- Iterated knot insertion, by an explicit count. -/
def insertKnotTimes (d : ℕ) (comb : Fr → α → α → α) (dflt : α) (t : Fr) :
    ℕ → List Fr × List α → List Fr × List α
  | 0, kc => kc
  | m + 1, kc => insertKnotTimes d comb dflt t m (insertKnot d kc.1 kc.2 comb dflt t)

/-- Modelled from the spec: `cut` of section 4.2 (the curve submodule is not
under src/) — insert `t` until it reaches multiplicity `degree + 1`, then
partition knots and control points into the two halves. -/
def cutSplit (ks : List Fr) (ctrl : List α) (comb : Fr → α → α → α) (dflt : α) (t : Fr) :
    (List Fr × List α) × (List Fr × List α) :=
  let d := bspDegree ks ctrl.length
  let mult := (ks.filter (fun u => u.beqB t)).length
  let kc := insertKnotTimes d comb dflt t (d + 1 - mult) (ks, ctrl)
  let s := (kc.1.filter (fun u => u.ltB t)).length
  ((kc.1.take (s + d + 1), kc.2.take s), (kc.1.drop s, kc.2.drop s))

/-- Curve splitting at a parameter (`curve.cut(t)`; in the source the
receiver becomes the first half and the second half is returned).  A line
splits at its evaluated point; a B-spline or NURBS curve with explicit
control points splits by full-multiplicity knot insertion.  Curves with
symbolic control points and the opaque curves are returned unsplit (no
claim depends on those cases). -/
def Curve.cut (c : Curve) (t : Fr) : Curve × Curve :=
  match c with
  | .Line p q => (.Line p (c.subs t), .Line (c.subs t) q)
  | .BSplineCurve bc =>
      match allVecs bc.ctrl with
      | some vs =>
          let r := cutSplit bc.knots vs
            (fun a x y => (x.smul a).add (y.smul (1 - a))) ⟨0, 0, 0⟩ t
          (.BSplineCurve ⟨r.1.1, r.1.2.map Pt.base⟩, .BSplineCurve ⟨r.2.1, r.2.2.map Pt.base⟩)
      | none => (c, c)
  | .NurbsCurve (.explicitH ks cs) =>
      match cs.mapM HPt.toVec4 with
      | some vs =>
          let cmb : Fr → Fr × Fr × Fr × Fr → Fr × Fr × Fr × Fr → Fr × Fr × Fr × Fr := fun a x y =>
            (a * x.1 + (1 - a) * y.1, a * x.2.1 + (1 - a) * y.2.1,
             a * x.2.2.1 + (1 - a) * y.2.2.1, a * x.2.2.2 + (1 - a) * y.2.2.2)
          let r := cutSplit ks vs cmb (0, 0, 0, 0) t
          let toH : Fr × Fr × Fr × Fr → HPt := fun v => .base4 v.1 v.2.1 v.2.2.1 v.2.2.2
          (.NurbsCurve (.explicitH r.1.1 (r.1.2.map toH)),
           .NurbsCurve (.explicitH r.2.1 (r.2.2.map toH)))
      | none => (c, c)
  | .NurbsCurve (.ofArc _ _ _ _ _) => (c, c)
  | .IntersectionCurve => (c, c)

/-- The clamped degree-1 knot vector `[0,0,1,1]` (`KnotVec::bezier_knot(1)`),
the v-direction knot vector of every lofting surface. -/
def bezierKnot1 : List Fr := [0, 0, 1, 1]

/-- A point-valued B-spline surface (`BSplineSurface<P>`). -/
structure PSurf where
  uknots : List Fr
  vknots : List Fr
  grid : List (List Pt)
deriving DecidableEq, Repr

/-- A homogeneous B-spline surface (the underlying surface of
`NurbsSurface`). -/
structure HSurf where
  uknots : List Fr
  vknots : List Fr
  grid : List (List HPt)
deriving DecidableEq, Repr

/-- Modelled from the spec: `BSplineSurface::homotopy` of section 4.3 (the
surface submodule is not under src/): the ruled surface whose u-knot vector
is the curves' shared knot vector, whose v-knot vector is the degree-1
clamped vector, and whose control grid pairs the two curves' control rows.
The mutual knot-insertion unification of parametrically incompatible inputs
is not modelled: the sweep layer lofts a curve against its own transform. -/
def homotopyP (a b : BSC) : PSurf := ⟨a.knots, bezierKnot1, [a.ctrl, b.ctrl]⟩

/-- Modelled from the spec: homotopy of homogeneous curves, as `homotopyP`. -/
def homotopyH (a b : HBsp) : HSurf := ⟨a.knots, bezierKnot1, [a.ctrl, b.ctrl]⟩

/-- Lift a curve into a homogeneous B-spline (`Curve::lift_up`): a line
becomes the degree-1 Bezier on its lifted endpoints, a B-spline lifts every
control point with weight 1, a NURBS curve yields its underlying
homogeneous curve (spec section 4.4); lifting an intersection curve is
unimplemented in the source and is modelled degenerately. -/
def Curve.lift_up : Curve → HBsp
  | .Line p q => .explicitH bezierKnot1 [.lifted p, .lifted q]
  | .BSplineCurve c => .explicitH c.knots (c.ctrl.map HPt.lifted)
  | .NurbsCurve h => h
  | .IntersectionCurve => .explicitH [] []

/-- The tagged surface union handed to the topology layer (`Surface` of
truck-modeling): planes (by three points, `Plane::new`), B-spline and NURBS
surfaces, and surfaces of revolution
(`RevolutedCurve::by_revolution(curve, origin, axis)` behind a processor). -/
inductive Surface where
  | Plane (o p q : Pt)
  | BSplineSurface (s : PSurf)
  | NurbsSurface (s : HSurf)
  | RevolutedCurve (c : Curve) (origin : Pt) (axis : Vec3)
deriving DecidableEq, Repr

/-- Orientation reversal of a surface, modelled structurally: a plane swaps
its two spanning points, a spline surface flips its v-direction, a revolved
surface flips its axis.  Only reached through inverted faces, which no
claim inspects. -/
def Surface.inverseS : Surface → Surface
  | .Plane o p q => .Plane o q p
  | .BSplineSurface s => .BSplineSurface ⟨s.uknots, s.vknots, s.grid.reverse⟩
  | .NurbsSurface s => .NurbsSurface ⟨s.uknots, s.vknots, s.grid.reverse⟩
  | .RevolutedCurve c o ax => .RevolutedCurve c o ((⟨0, 0, 0⟩ : Vec3).sub ax)

/-- A topological vertex: an identity and a point (`Vertex::new` assigns the
identity; the sweep layer never mutates vertices). -/
structure Vertex where
  id : ℕ
  pt : Pt
deriving DecidableEq, Repr

/-- A topological edge: an identity, its two ends in stored order, its curve,
and an orientation flag.  `Edge::new(v0, v1, curve)` stores `v0`, `v1` with
positive orientation; `inverse` flips only the flag and shares the identity.
The endpoint/curve consistency check of `Edge::new` is a debug-build
assertion in the source (`Edge::debug_new` skips it) and is not modelled. -/
structure Edge where
  id : ℕ
  v0 : Vertex
  v1 : Vertex
  curve : Curve
  ori : Bool
deriving DecidableEq, Repr

/-- Front vertex of an edge, respecting orientation. -/
def Edge.front (e : Edge) : Vertex := if e.ori then e.v0 else e.v1

/-- Back vertex of an edge, respecting orientation. -/
def Edge.back (e : Edge) : Vertex := if e.ori then e.v1 else e.v0

/-- Edge inversion: same identity, flipped orientation flag. -/
def Edge.inverseE (e : Edge) : Edge := { e with ori := !e.ori }

/-- The curve of an edge respecting its orientation (`oriented_curve`). -/
def Edge.orientedCurve (e : Edge) : Curve := if e.ori then e.curve else e.curve.inverse

/-- A wire: an ordered chain of edges. -/
abbrev Wire := List Edge

/-- A face: boundary wires, a surface, and an orientation flag (`Face::new`
and `Face::debug_new` produce positively oriented faces). -/
structure Face where
  bnd : List Wire
  surf : Surface
  ori : Bool
deriving DecidableEq, Repr

/-- A shell: a list of faces. -/
abbrev Shell := List Face

/-- Inversion of a wire: reverse the chain, inverting each edge. -/
def Wire.inverseW (w : Wire) : Wire := (w.map Edge.inverseE).reverse

/-- Oriented boundaries of a face (`boundaries()`). -/
def Face.boundaries (f : Face) : List Wire :=
  if f.ori then f.bnd else f.bnd.map Wire.inverseW

/-- Oriented surface of a face (`oriented_surface()`). -/
def Face.orientedSurface (f : Face) : Surface :=
  if f.ori then f.surf else f.surf.inverseS

/-- Stand-in point for out-of-range list reads (the source indexing would
abort on out-of-range; every modelled read is in range). -/
def dummyPt : Pt := .base ⟨0, 0, 0⟩

/-- Stand-in vertex for out-of-range reads. -/
def dummyVertex : Vertex := ⟨0, dummyPt⟩

/-- Stand-in edge for out-of-range reads. -/
def dummyEdge : Edge := ⟨0, dummyVertex, dummyVertex, .Line dummyPt dummyPt, true⟩

/-- Stand-in face for out-of-range reads. -/
def dummyFace : Face := ⟨[], .Plane dummyPt dummyPt dummyPt, true⟩

/-- `builder::vertex` / `Vertex::new`: a fresh vertex at a point.  Builder
functions thread an identity counter, modelling the source's global
identity generation. -/
def Vertex.new (p : Pt) (n : ℕ) : Vertex × ℕ := (⟨n, p⟩, n + 1)

/-- `Edge::new` / `Edge::debug_new`: a fresh positively oriented edge. -/
def Edge.newE (v0 v1 : Vertex) (c : Curve) (n : ℕ) : Edge × ℕ := (⟨n, v0, v1, c, true⟩, n + 1)

/-- `builder::line`: an edge joining two vertices by the line between their
points (src/truck-modeling/src/builder.rs, `line`). -/
def line (v0 v1 : Vertex) (n : ℕ) : Edge × ℕ :=
  Edge.newE v0 v1 (.Line v0.pt v1.pt) n

/-- Topology-layer errors wrapped by the builder (`truck_topology::errors`;
only the non-closed-wire error is reached by the modelled paths). -/
inductive TopoError where
  | NotClosedWire
deriving DecidableEq, Repr

/-- Builder errors (src/truck-modeling, `errors::Error`). -/
inductive Error where
  | NotSameNumberOfEdges
  | WireNotInOnePlane
  | FromTopology (e : TopoError)
deriving DecidableEq, Repr

/-- The call-scoped vertex-pair memoization map (`FxEntryMap` keyed by
`(v0.id(), v1.id())` in `try_wire_homotopy`), as an association list. -/
abbrev VEMap := List ((ℕ × ℕ) × Edge)

/-- Lookup of a key in the memoization map. -/
def findPair (k : ℕ × ℕ) (m : VEMap) : Option Edge :=
  (m.find? (fun kv => kv.1 = k)).map (fun kv => kv.2)

/-- Get-or-insert on the memoization map (`entry_or_insert`): the key is the
ordered identity pair of the two vertices; a missing entry creates the
connecting edge by the supplied constructor (a `line` in
`try_wire_homotopy`, a circular arc in the rotational sweeps). -/
def entryOrInsert (cp : Pt → Pt → Curve) (v0 v1 : Vertex) (m : VEMap) (n : ℕ) :
    Edge × VEMap × ℕ :=
  match findPair (v0.id, v1.id) m with
  | some e => (e, m, n)
  | none =>
      let en := Edge.newE v0 v1 (cp v0.pt v1.pt) n
      (en.1, m ++ [((v0.id, v1.id), en.1)], en.2)

/-- Connect two corresponding edges into a four-sided face (the loop body of
`try_wire_homotopy`, src/truck-modeling/src/builder.rs lines 240-253):
a connecting edge at the fronts (used inverted), one at the backs, the
boundary `[edge0, edge3, edge1.inverse(), edge2]`, and the surface built
from the two oriented curves. -/
def connectEdges (cp : Pt → Pt → Curve) (cs : Curve → Curve → Surface) (e0 e1 : Edge)
    (m : VEMap) (n : ℕ) : Face × VEMap × ℕ :=
  let r2 := entryOrInsert cp e0.front e1.front m n
  let edge2 := r2.1.inverseE
  let r3 := entryOrInsert cp e0.back e1.back r2.2.1 r2.2.2
  let edge3 := r3.1
  let w : Wire := [e0, edge3, e1.inverseE, edge2]
  (⟨[w], cs e0.orientedCurve e1.orientedCurve, true⟩, r3.2.1, r3.2.2)

/-- Connect two wires edge-by-edge into a shell of four-sided faces, sharing
connecting edges through the memoization map. -/
def connectWires (cp : Pt → Pt → Curve) (cs : Curve → Curve → Surface) :
    Wire → Wire → VEMap → ℕ → Shell × VEMap × ℕ
  | e0 :: es0, e1 :: es1, m, n =>
      let r := connectEdges cp cs e0 e1 m n
      let rest := connectWires cp cs es0 es1 r.2.1 r.2.2
      (r.1 :: rest.1, rest.2.1, rest.2.2)
  | _, _, m, n => ([], m, n)

/-- The surface attached by `try_wire_homotopy` to each face: the NURBS
surface of the homotopy of the two lifted curves. -/
def twhSurf (c0 c1 : Curve) : Surface :=
  .NurbsSurface (homotopyH c0.lift_up c1.lift_up)

/-- `builder::try_wire_homotopy` (src/truck-modeling/src/builder.rs lines
229-256): fails with the mismatched-edge-count error when the wires have
different numbers of edges; otherwise pairs corresponding edges into faces,
memoizing connecting edges in the call-scoped map. -/
def try_wire_homotopy (w0 w1 : Wire) (n : ℕ) : Except Error Shell × ℕ :=
  if w0.length ≠ w1.length then (.error .NotSameNumberOfEdges, n)
  else
    let r := connectWires (fun p q => .Line p q) twhSurf w0 w1 [] n
    (.ok r.1, r.2.2)

/-- The vertex deduplication map of a topological mapping: old identity to
new vertex, so shared ends of consecutive edges map to one new vertex. -/
abbrev VMap := List (ℕ × Vertex)

/-- Get-or-create the image of a vertex under a point map. -/
def mapVertex (pmap : Pt → Pt) (v : Vertex) (m : VMap) (n : ℕ) : Vertex × VMap × ℕ :=
  match (m.find? (fun kv => kv.1 = v.id)).map (fun kv => kv.2) with
  | some v2 => (v2, m, n)
  | none =>
      let r := Vertex.new (pmap v.pt) n
      (r.1, m ++ [(v.id, r.1)], r.2)

/-- Modelled from the spec: the `mapped` topological clone of a wire used by
the sweep trait implementations (the topology trait impls are not under
src/) — every edge is cloned with fresh identity, stored ends mapped
through the deduplicating vertex map, stored curve through the curve map,
orientation kept. -/
def mappedWire (pmap : Pt → Pt) (cmap : Curve → Curve) : Wire → VMap → ℕ → Wire × ℕ
  | [], _, n => ([], n)
  | e :: es, m, n =>
      let r0 := mapVertex pmap e.v0 m n
      let r1 := mapVertex pmap e.v1 r0.2.1 r0.2.2
      let en : Edge := ⟨r1.2.2, r0.1, r1.1, cmap e.curve, e.ori⟩
      let rest := mappedWire pmap cmap es r1.2.1 (r1.2.2 + 1)
      (en :: rest.1, rest.2)

/-- Modelled from the spec: one column of a multi-step sweep per subdivision
step (the `MultiSweep`/`ClosedSweep` trait impls are not under src/).
`k` counts the remaining steps; in a closed sweep the last step connects
back to the original wire itself (`self.clone()` shares identities), which
makes the chain of faces cyclic. -/
def sweepColumns (pmap : Pt → Pt) (cmap : Curve → Curve) (cp : Pt → Pt → Curve)
    (cs : Curve → Curve → Surface) (worig : Wire) (closed : Bool) :
    ℕ → Wire → ℕ → Shell × ℕ
  | 0, _, n => ([], n)
  | k + 1, cur, n =>
      let rnw : Wire × ℕ :=
        if closed && k = 0 then (worig, n) else mappedWire pmap cmap cur [] n
      let rcw := connectWires cp cs cur rnw.1 [] rnw.2
      let rrest := sweepColumns pmap cmap cp cs worig closed k rnw.1 rcw.2.2
      (rcw.1 ++ rrest.1, rrest.2)

/-- `builder::partial_rsweep` (src/truck-modeling/src/builder.rs lines
642-667) on a wire: 2 subdivision steps when the angle is below pi, else 3;
each step rotates by `angle / division`, connects points by circular arcs
of that angular span, and attaches surfaces of revolution about the axis
through the origin. -/
def partial_rsweep (w : Wire) (origin : Pt) (axis : Vec3) (angle : Fr) (n : ℕ) : Shell × ℕ :=
  let division : ℕ := if angle.absF.ltB piF then 2 else 3
  sweepColumns (Pt.rotated origin axis (angle / ⟨division, 1⟩))
    (Curve.rotatedC origin axis (angle / ⟨division, 1⟩))
    (fun p _ => Curve.circleArc p origin axis (angle / ⟨division, 1⟩))
    (fun c _ => Surface.RevolutedCurve c origin axis)
    w false division w n

/-- `builder::whole_rsweep` (src/truck-modeling/src/builder.rs lines
669-693) on a wire: always exactly 3 subdivision steps of `2 pi / 3` each,
closing the chain of faces back onto the original wire. -/
def whole_rsweep (w : Wire) (origin : Pt) (axis : Vec3) (n : ℕ) : Shell × ℕ :=
  sweepColumns (Pt.rotated origin axis (piF * 2 / 3))
    (Curve.rotatedC origin axis (piF * 2 / 3))
    (fun p _ => Curve.circleArc p origin axis (piF * 2 / 3))
    (fun c _ => Surface.RevolutedCurve c origin axis)
    w true 3 w n

/-- The f64 `signum` of a non-NaN angle: `-1` below zero, else `1`. -/
def sgn (x : Fr) : Fr := if x.ltB 0 then -1 else 1

/-- `builder::rsweep` (src/truck-modeling/src/builder.rs lines 626-640) on a
wire: the sign of the angle is folded into the axis and the whole- or
partial-revolution path is taken according to whether the absolute angle
reaches `2 pi`.  The axis is required to be a unit vector by a debug-build
assertion only, which is not modelled. -/
def rsweep (w : Wire) (origin : Pt) (axis : Vec3) (angle : Fr) (n : ℕ) : Shell × ℕ :=
  let s := sgn angle
  if (2 * piF).leB angle.absF then whole_rsweep w origin (Vec3.smul s axis) n
  else partial_rsweep w origin (Vec3.smul s axis) (angle * s) n

/-- The connecting-surface selection of `builder::tsweep`
(src/truck-modeling/src/builder.rs lines 511-527): a plane when both rails
are lines (through the first line and its translate), a homotopy (ruled
lofting) surface for B-spline and NURBS rails; intersection-curve rails are
unimplemented and rails of differing kind unreachable, both modelled as
`none` (the call diverges). -/
def tsweepSurface (vec : Vec3) : Curve → Curve → Option Surface
  | .Line p q, .Line _ _ => some (.Plane p q (.translated vec p))
  | .BSplineCurve c0, .BSplineCurve c1 => some (.BSplineSurface (homotopyP c0 c1))
  | .NurbsCurve c0, .NurbsCurve c1 => some (.NurbsSurface (homotopyH c0 c1))
  | _, _ => none

/-- Modelled from the spec: the translation sweep of a single edge (the
`Sweep` trait impl for `Edge` is not under src/) — a mapped copy of the
edge with fresh ends, connecting lines at front and back, the four-sided
boundary, and the surface chosen by the connecting-surface closure; `none`
when that closure diverges. -/
def sweepEdge (pmap : Pt → Pt) (cmap : Curve → Curve) (cs : Curve → Curve → Option Surface)
    (e : Edge) (n : ℕ) : Option (Face × ℕ) :=
  let rv0 := Vertex.new (pmap e.v0.pt) n
  let rv1 := Vertex.new (pmap e.v1.pt) rv0.2
  let e2 : Edge := ⟨rv1.2, rv0.1, rv1.1, cmap e.curve, e.ori⟩
  let rf := line e.front e2.front (rv1.2 + 1)
  let rb := line e.back e2.back rf.2
  match cs e.orientedCurve e2.orientedCurve with
  | none => none
  | some s => some (⟨[[e, rb.1, e2.inverseE, rf.1.inverseE]], s, true⟩, rb.2)

/-- `builder::tsweep` (src/truck-modeling/src/builder.rs lines 504-529) on a
single edge: translation sweep with the curve-kind surface selection. -/
def tsweepEdge (vec : Vec3) (e : Edge) (n : ℕ) : Option (Face × ℕ) :=
  sweepEdge (Pt.translated vec) (Curve.translatedC vec) (tsweepSurface vec) e n

/-- The apex test of `builder::cone`: whether the vector between the wire's
extreme points is parallel to the axis within tolerance
(`(pt1 - pt0).cross(axis).so_small()`); points that are symbolic images of
rotations are never fed to this test by the modelled paths. -/
def pt1OnAxis (pt0 pt1 : Pt) (axis : Vec3) : Bool :=
  match pt0.toVec, pt1.toVec with
  | some a, some b => ((b.sub a).cross axis).soSmallV
  | _, _ => false

/-- The profile-preparation stage of `builder::cone`
(src/truck-modeling/src/builder.rs lines 294-308): a single-edge profile
whose chord is axis-parallel is bisected at its midpoint parameter — a
fresh vertex at the evaluated midpoint replaces the edge by the two halves
of its cut — before the revolution sweep runs. -/
def conePreparedWire (w : Wire) (axis : Vec3) (n : ℕ) : Wire × ℕ :=
  let pt0 := (w.headD dummyEdge).front.pt
  let pt1 := (w.getLastD dummyEdge).back.pt
  if w.length = 1 && pt1OnAxis pt0 pt1 axis then
    let e := w.headD dummyEdge
    let v0 := e.front
    let v2 := e.back
    let c := e.curve
    let rt := c.rangeTuple
    let t := (rt.1 + rt.2) * ((1 : Fr) / 2)
    let rv := Vertex.new (c.subs t) n
    let cc := c.cut t
    let r1 := Edge.newE v0 rv.1 cc.1 rv.2
    let r2 := Edge.newE rv.1 v2 cc.2 r1.2
    ([r1.1, r2.1], r2.2)
  else (w, n)

/-- One step of the first re-stitching pass of `builder::cone`
(src/truck-modeling/src/builder.rs lines 310-328): the face at `i * wlen`
is rebuilt on the three-edge boundary `[edge, old_wire[1], new_edge]`,
where on the last step of a closed sweep `new_edge` closes onto the
(already rebuilt) first face's leading edge. -/
def restitchFrontStep (wlen total : ℕ) (closed : Bool) (st : Shell × Edge × ℕ) (i : ℕ) :
    Shell × Edge × ℕ :=
  let shell := st.1
  let edge := st.2.1
  let n := st.2.2
  let idx := i * wlen
  let face := shell.getD idx dummyFace
  let surface := face.orientedSurface
  let oldWire := face.boundaries.getLastD []
  let rne : Edge × ℕ :=
    if closed && i + 1 = total then
      ((((shell.getD 0 dummyFace).boundaries.getD 0 []).getD 0 dummyEdge).inverseE, n)
    else
      Edge.newE (oldWire.getD 2 dummyEdge).front edge.front
        (oldWire.getD 2 dummyEdge).orientedCurve n
  let newWire : Wire := [edge, oldWire.getD 1 dummyEdge, rne.1]
  (shell.set idx ⟨[newWire], surface, true⟩, rne.1.inverseE, rne.2)

/-- One step of the second re-stitching pass of `builder::cone`
(src/truck-modeling/src/builder.rs lines 329-348), at the far apex: the
face at `(i + 1) * wlen - 1` is rebuilt on `[edge, new_edge, old_wire[3]]`. -/
def restitchBackStep (wlen total : ℕ) (closed : Bool) (st : Shell × Edge × ℕ) (i : ℕ) :
    Shell × Edge × ℕ :=
  let shell := st.1
  let edge := st.2.1
  let n := st.2.2
  let idx := (i + 1) * wlen - 1
  let face := shell.getD idx dummyFace
  let surface := face.orientedSurface
  let oldWire := face.boundaries.getLastD []
  let rne : Edge × ℕ :=
    if closed && i + 1 = total then
      ((((shell.getD (wlen - 1) dummyFace).boundaries.getD 0 []).getD 0 dummyEdge).inverseE, n)
    else
      Edge.newE edge.back (oldWire.getD 2 dummyEdge).back
        (oldWire.getD 2 dummyEdge).orientedCurve n
  let newWire : Wire := [edge, rne.1, oldWire.getD 3 dummyEdge]
  (shell.set idx ⟨[newWire], surface, true⟩, rne.1.inverseE, rne.2)

/-- `builder::cone` (src/truck-modeling/src/builder.rs lines 286-351): the
empty profile returns the empty shell at once; otherwise the profile is
prepared (possible bisection), revolved by `rsweep` about the axis through
its front point, and the ring of faces at each apex is re-stitched to share
one edge per apex, dropping the degenerate apex-adjacent edge from each
affected boundary. -/
def cone (w : Wire) (axis : Vec3) (angle : Fr) (n : ℕ) : Shell × ℕ :=
  let closed := (2 * piF).leB angle.absF
  match w with
  | [] => ([], n)
  | _ :: _ =>
    let pt0 := (w.headD dummyEdge).front.pt
    let pt1 := (w.getLastD dummyEdge).back.pt
    let onAxis := pt1OnAxis pt0 pt1 axis
    let rw := conePreparedWire w axis n
    let wire := rw.1
    let rs := rsweep wire pt0 axis angle rw.2
    let shell := rs.1
    let total := shell.length / wire.length
    let st1 := (List.range total).foldl
      (restitchFrontStep wire.length total closed)
      (shell, ((shell.getD 0 dummyFace).boundaries.getD 0 []).getD 0 dummyEdge, rs.2)
    if onAxis then
      let st2 := (List.range total).foldl
        (restitchBackStep wire.length total closed)
        (st1.1, ((st1.1.getD (wire.length - 1) dummyFace).boundaries.getD 0 []).getD 0 dummyEdge,
         st1.2.2)
      (st2.1, st2.2.2)
    else (st1.1, st1.2.2)

/-- The lifted control points of the boundaries handed to the plane fit
(`try_attach_plane`, src/truck-modeling/src/builder.rs lines 402-416): for
each wire, the projected control points of every edge's lifted oriented
curve. -/
def ptsOfWires (wires : List Wire) : List (List Pt) :=
  wires.map (fun w => (w.map (fun e => (HBsp.ctrl e.orientedCurve.lift_up).map HPt.toPoint)).flatten)

/-- Modelled from the spec: `geom_impls::attach_plane` (not under src/) fits
a plane to the given points and checks the residual is within tolerance.
Modelled as: all points must be explicit; a spanning triple is chosen from
them and every point must lie within tolerance of its plane (squared
normal-distance test, exact over the fractions); fewer than three spanning
points yield no plane. -/
def attach_plane (pts : List (List Pt)) : Option (Pt × Pt × Pt) :=
  match pts.flatten.mapM Pt.toVec with
  | none => none
  | some vs =>
    match vs.head? with
    | none => none
    | some a =>
      match vs.find? (fun b => !(b.beqV a)) with
      | none => none
      | some b =>
        match vs.find? (fun c => !(((b.sub a).cross (c.sub a)).isZeroV)) with
        | none => none
        | some c =>
          let nrm := (b.sub a).cross (c.sub a)
          if vs.all (fun p =>
              (((p.sub a).dot nrm) * ((p.sub a).dot nrm)).leB ((TOL * TOL) * nrm.dot nrm)) then
            some (.base a, .base b, .base c)
          else none

/-- Chaining of consecutive edges of a wire by vertex identity. -/
def chainedW : Wire → Bool
  | [] => true
  | [_] => true
  | a :: b :: rest => decide (a.back.id = b.front.id) && chainedW (b :: rest)

/-- Topological closedness of a wire: nonempty, consecutively chained, and
wrapping around (`Wire::is_closed` together with continuity, delegated to
the topology layer by `Face::try_new`). -/
def Wire.isClosed (w : Wire) : Bool :=
  match w with
  | [] => false
  | e :: _ => chainedW w && decide ((w.getLastD dummyEdge).back.id = e.front.id)

/-- Modelled from the spec: `Face::try_new` of the topology collaborator
(truck-topology is not under src/) — fails with the non-closed-wire error
unless every boundary wire is topologically closed. -/
def Face.tryNew (bs : List Wire) (s : Surface) : Except Error Face :=
  if bs.all Wire.isClosed then .ok ⟨bs, s, true⟩
  else .error (.FromTopology .NotClosedWire)

/-- `builder::try_attach_plane` (src/truck-modeling/src/builder.rs lines
400-422): collect the lifted control points of all boundary edges, fit a
plane (failing with the not-coplanar error), and build the face through the
fallible topology-layer constructor (whose error is wrapped). -/
def try_attach_plane (wires : List Wire) : Except Error Face :=
  match attach_plane (ptsOfWires wires) with
  | none => .error .WireNotInOnePlane
  | some pl => Face.tryNew wires (.Plane pl.1 pl.2.1 pl.2.2)

namespace NurbsEval

/-- A floating-point value for the evaluation model: `fin` is a finite value
(embedded exactly), `nonfinite` stands for the non-finite results (NaN or an
infinity) that an unguarded division could produce. -/
inductive MF where
  | fin (q : Fr)
  | nonfinite
deriving DecidableEq, Repr

/-- Addition; non-finite operands propagate. -/
def MF.add : MF → MF → MF
  | .fin a, .fin b => .fin (a + b)
  | _, _ => .nonfinite

/-- Multiplication; non-finite operands propagate. -/
def MF.mul : MF → MF → MF
  | .fin a, .fin b => .fin (a * b)
  | _, _ => .nonfinite

/-- Division: a (semantically) zero divisor yields a non-finite value (the
f64 infinity or NaN), as does a non-finite operand. -/
def MF.div : MF → MF → MF
  | .fin a, .fin b => if b.num = 0 then .nonfinite else .fin (a / b)
  | _, _ => .nonfinite

/-- `inv_or_zero` (src/truck-geometry/src/nurbs/mod.rs lines 127-135) over
the evaluation carrier: `0` when the denominator is within tolerance, the
true division otherwise. -/
def inv_or_zero (delta : Fr) : MF :=
  if soSmall delta then .fin 0 else MF.div (.fin 1) (.fin delta)

/-- Modelled from the spec: the Cox-de Boor basis recurrence of section 4.2
over the evaluation carrier, with the knot-difference reciprocals guarded
by `inv_or_zero` as in the source's shared helper. -/
def basis (ks : List Fr) : ℕ → ℕ → Fr → MF
  | 0, i, t => .fin (if (knotAt ks i).leB t && t.ltB (knotAt ks (i + 1)) then 1 else 0)
  | d + 1, i, t =>
      MF.add
        (MF.mul
          (MF.mul (.fin (t - knotAt ks i)) (inv_or_zero (knotAt ks (i + d + 1) - knotAt ks i)))
          (basis ks d i t))
        (MF.mul
          (MF.mul (.fin (knotAt ks (i + d + 2) - t))
            (inv_or_zero (knotAt ks (i + d + 2) - knotAt ks (i + 1))))
          (basis ks d (i + 1) t))

/-- Sum of a list of values. -/
def MF.sum (l : List MF) : MF := l.foldr MF.add (.fin 0)

/-- A NURBS curve for the evaluation model: a knot vector and explicit
homogeneous control points (spec section 4.4: a B-spline over homogeneous
coordinates). -/
structure NCurve where
  knots : List Fr
  ctrl : List (Fr × Fr × Fr × Fr)
deriving DecidableEq, Repr

/-- One homogeneous component of the underlying B-spline evaluation: blend
the chosen coordinate of the control points by the basis functions. -/
def NCurve.homogeneous (c : NCurve) (f : Fr × Fr × Fr × Fr → Fr) (t : Fr) : MF :=
  let d := bspDegree c.knots c.ctrl.length
  MF.sum ((List.range c.ctrl.length).map
    (fun i => MF.mul (basis c.knots d i t) (.fin (f (c.ctrl.getD i (0, 0, 0, 0))))))

/-- NURBS evaluation (spec sections 4.4 and 4.2; the nurbs submodules are
not under src/): evaluate the homogeneous point, then project the spatial
components by the weight through the `inv_or_zero` guard. -/
def NCurve.subs (c : NCurve) (t : Fr) : MF × MF × MF :=
  let hw := c.homogeneous (fun v => v.2.2.2) t
  match hw with
  | .nonfinite => (.nonfinite, .nonfinite, .nonfinite)
  | .fin w =>
      (MF.mul (c.homogeneous (fun v => v.1) t) (inv_or_zero w),
       MF.mul (c.homogeneous (fun v => v.2.1) t) (inv_or_zero w),
       MF.mul (c.homogeneous (fun v => v.2.2.1) t) (inv_or_zero w))

end NurbsEval

/-- C10: `cone` applied to an empty wire returns the empty shell at once,
with no error, no divergence, and no sweep performed (the identity counter
is untouched: no topology is created). -/
theorem C10_cone_empty (axis : Vec3) (angle : Fr) (n : ℕ) :
    cone [] axis angle n = ([], n) := rfl

/-- C9: in `cone`, a single-edge profile whose chord is parallel to the
rotation axis within tolerance is bisected at its midpoint parameter
before the revolution sweep runs: a fresh intermediate vertex at the
evaluated midpoint replaces the edge by the two halves of its cut.  (The
rotation axis passes through the front endpoint by construction, so the
spec's off-axis phrasing is read as the chord being a genuine segment.) -/
theorem C9_cone_bisection (e : Edge) (axis : Vec3) (n : ℕ)
    (h : pt1OnAxis e.front.pt e.back.pt axis = true) :
    conePreparedWire [e] axis n =
      ([⟨n + 1, e.front,
          ⟨n, e.curve.subs ((e.curve.rangeTuple.1 + e.curve.rangeTuple.2) * ((1 : Fr) / 2))⟩,
          (e.curve.cut ((e.curve.rangeTuple.1 + e.curve.rangeTuple.2) * ((1 : Fr) / 2))).1,
          true⟩,
        ⟨n + 2,
          ⟨n, e.curve.subs ((e.curve.rangeTuple.1 + e.curve.rangeTuple.2) * ((1 : Fr) / 2))⟩,
          e.back,
          (e.curve.cut ((e.curve.rangeTuple.1 + e.curve.rangeTuple.2) * ((1 : Fr) / 2))).2,
          true⟩],
       n + 3) := by
  simp [conePreparedWire, h, Vertex.new, Edge.newE]

/-- Witness edge for the bisection branch: a line whose chord is parallel to
the z-axis. -/
def bisectEdge : Edge :=
  ⟨2, ⟨0, .base ⟨1, 0, 0⟩⟩, ⟨1, .base ⟨1, 0, 2⟩⟩, .Line (.base ⟨1, 0, 0⟩) (.base ⟨1, 0, 2⟩), true⟩

/-- Witness for C9: on a concrete axis-parallel line edge the branch is
taken and the prepared profile has exactly two edges sharing the fresh
midpoint vertex. -/
theorem C9_cone_bisection_witness :
    pt1OnAxis bisectEdge.front.pt bisectEdge.back.pt ⟨0, 0, 1⟩ = true
    ∧ (conePreparedWire [bisectEdge] ⟨0, 0, 1⟩ 5).1.length = 2
    ∧ ((conePreparedWire [bisectEdge] ⟨0, 0, 1⟩ 5).1.getD 0 dummyEdge).v1
      = ((conePreparedWire [bisectEdge] ⟨0, 0, 1⟩ 5).1.getD 1 dummyEdge).v0 := by
  refine ⟨by decide, ?_, ?_⟩ <;>
    rw [C9_cone_bisection bisectEdge ⟨0, 0, 1⟩ 5 (by decide)] <;> rfl

/-- First profile vertex of the cone example of the source documentation. -/
def coneExV0 : Vertex := ⟨0, .base ⟨0, 1, 0⟩⟩

/-- Middle profile vertex of the cone example. -/
def coneExV1 : Vertex := ⟨1, .base ⟨0, 0, 1⟩⟩

/-- Last profile vertex of the cone example, on the rotation axis. -/
def coneExV2 : Vertex := ⟨2, .base ⟨0, 0, 0⟩⟩

/-- The two-edge profile wire of the cone example, whose far endpoint lies
on the rotation axis through its front point. -/
def coneExWire : Wire :=
  [⟨3, coneExV0, coneExV1, .Line coneExV0.pt coneExV1.pt, true⟩,
   ⟨4, coneExV1, coneExV2, .Line coneExV1.pt coneExV2.pt, true⟩]

/-- The rotation axis of the cone example. -/
def coneExAxis : Vec3 := ⟨0, 1, 0⟩

/-- C4: on the two-edge profile whose far endpoint lies on the rotation
axis, every lateral face of `cone` has exactly 3 boundary edges, while
every face of the plain `rsweep` of the same wire has 4: the apex
re-stitching removes one degenerate apex-adjacent edge from each affected
boundary. -/
theorem C4_cone_vs_rsweep_boundaries :
    ((cone coneExWire coneExAxis (2 * piF) 5).1.map (fun f => (f.bnd.headD []).length)
      = [3, 3, 3, 3, 3, 3])
    ∧ ((rsweep coneExWire (.base ⟨0, 1, 0⟩) coneExAxis (2 * piF) 5).1.map
        (fun f => (f.bnd.headD []).length)
      = [4, 4, 4, 4, 4, 4]) := by
  constructor <;> decide

/-- A fraction that is not within tolerance of zero has a nonzero
numerator: the epsilon guard is strictly stronger than a zero test. -/
theorem num_ne_zero_of_not_soSmall (d : Fr) (h : ¬ soSmall d = true) : d.num ≠ 0 := by
  intro h0
  apply h
  simp [soSmall, Fr.leB, Fr.absF, TOL, h0]

/-- The guarded reciprocal of the evaluation model is always finite. -/
theorem inv_or_zero_fin (d : Fr) : ∃ q, NurbsEval.inv_or_zero d = .fin q := by
  unfold NurbsEval.inv_or_zero
  by_cases h : soSmall d = true
  · exact ⟨0, by simp [h]⟩
  · refine ⟨(1 : Fr) / d, ?_⟩
    simp [h, NurbsEval.MF.div, num_ne_zero_of_not_soSmall d h]

/-- Every basis value of the evaluation model is finite: the only divisions
are the guarded knot-difference reciprocals. -/
theorem basis_fin (ks : List Fr) :
    ∀ (d : ℕ) (i : ℕ) (t : Fr), ∃ q, NurbsEval.basis ks d i t = .fin q := by
  intro d
  induction d with
  | zero => exact fun i t => ⟨_, rfl⟩
  | succ d ih =>
      intro i t
      obtain ⟨q1, h1⟩ := ih i t
      obtain ⟨q2, h2⟩ := ih (i + 1) t
      obtain ⟨r1, hr1⟩ := inv_or_zero_fin (knotAt ks (i + d + 1) - knotAt ks i)
      obtain ⟨r2, hr2⟩ := inv_or_zero_fin (knotAt ks (i + d + 2) - knotAt ks (i + 1))
      exact ⟨(t - knotAt ks i) * r1 * q1 + (knotAt ks (i + d + 2) - t) * r2 * q2,
        by simp [NurbsEval.basis, h1, h2, hr1, hr2, NurbsEval.MF.mul, NurbsEval.MF.add]⟩

/-- A sum of finite values is finite. -/
theorem sum_fin (l : List NurbsEval.MF) (h : ∀ x ∈ l, ∃ q, x = .fin q) :
    ∃ q, NurbsEval.MF.sum l = .fin q := by
  induction l with
  | nil => exact ⟨0, rfl⟩
  | cons a l ih =>
      obtain ⟨qa, ha⟩ := h a (by simp)
      obtain ⟨ql, hl⟩ := ih (fun x hx => h x (by simp [hx]))
      exact ⟨qa + ql, by simp [NurbsEval.MF.sum, List.foldr_cons, ha,
        show l.foldr NurbsEval.MF.add (.fin 0) = .fin ql from hl, NurbsEval.MF.add]⟩

/-- Every homogeneous component of the evaluation model is finite. -/
theorem homogeneous_fin (c : NurbsEval.NCurve) (f : Fr × Fr × Fr × Fr → Fr) (t : Fr) :
    ∃ q, c.homogeneous f t = .fin q := by
  apply sum_fin
  intro x hx
  simp only [List.mem_map, List.mem_range] at hx
  obtain ⟨i, _, hi⟩ := hx
  obtain ⟨qb, hb⟩ := basis_fin c.knots (bspDegree c.knots c.ctrl.length) i t
  exact ⟨_, by rw [← hi, hb]; rfl⟩

/-- C8: NURBS evaluation is total — the rational projection divides by the
weight through the `inv_or_zero` epsilon guard, so evaluating a NURBS curve
at any parameter yields finite components, never the non-finite `nonfinite`
value that an unguarded division by a (near-)zero weight could produce; in
particular a curve whose local control point has weight `1e-15` evaluates
to the finite zero point. -/
theorem C8_nurbs_eval_total :
    (∀ (c : NurbsEval.NCurve) (t : Fr),
      ∃ q1 q2 q3, c.subs t = (.fin q1, .fin q2, .fin q3))
    ∧ (∃ q1 q2 q3,
        NurbsEval.NCurve.subs ⟨[0, 1], [(1, 2, 3, ⟨1, 1000000000000000⟩)]⟩ ((1 : Fr) / 2)
          = (.fin q1, .fin q2, .fin q3) ∧ q1.num = 0 ∧ q2.num = 0 ∧ q3.num = 0) := by
  constructor
  · intro c t
    obtain ⟨w, hw⟩ := homogeneous_fin c (fun v => v.2.2.2) t
    obtain ⟨x, hx⟩ := homogeneous_fin c (fun v => v.1) t
    obtain ⟨y, hy⟩ := homogeneous_fin c (fun v => v.2.1) t
    obtain ⟨z, hz⟩ := homogeneous_fin c (fun v => v.2.2.1) t
    obtain ⟨r, hr⟩ := inv_or_zero_fin w
    exact ⟨x * r, y * r, z * r,
      by simp [NurbsEval.NCurve.subs, hw, hx, hy, hz, hr, NurbsEval.MF.mul]⟩
  · exact ⟨_, _, _, rfl, by decide, by decide, by decide⟩

/-- Translation commutes with curve inversion: the translated copy of an
edge carries a curve of the same kind as the original, whichever way the
edge is oriented. -/
theorem translatedC_inverse (v : Vec3) (c : Curve) :
    (Curve.translatedC v c).inverse = Curve.translatedC v c.inverse := by
  cases c with
  | Line p q => rfl
  | BSplineCurve bc => simp [Curve.translatedC, Curve.inverse, List.map_reverse]
  | NurbsCurve h => cases h <;> simp [Curve.translatedC, Curve.inverse, List.map_reverse]
  | IntersectionCurve => rfl

/-- The oriented curve of the translated copy built by `sweepEdge` is the
translate of the original oriented curve. -/
theorem orientedCurve_translated_copy (v : Vec3) (e : Edge) (i : ℕ) (v0 v1 : Vertex) :
    (Edge.orientedCurve ⟨i, v0, v1, Curve.translatedC v e.curve, e.ori⟩)
      = Curve.translatedC v e.orientedCurve := by
  cases h : e.ori <;> simp [Edge.orientedCurve, h, translatedC_inverse]

/-- C6 (amended): for an edge swept by `tsweep`, the connecting surface is
chosen by curve kind — a plane when both rails are lines, a ruled lofting
(homotopy) surface when the rails are B-spline or NURBS curves, and for an
intersection-curve edge the sweep is unimplemented and diverges instead of
producing a surface. -/
theorem C6_tsweep_surface (vec : Vec3) (e : Edge) (n : ℕ) :
    ((∃ p q, e.orientedCurve = .Line p q) →
      ∃ f n2 p q, tsweepEdge vec e n = some (f, n2) ∧ e.orientedCurve = .Line p q ∧
        f.surf = .Plane p q (.translated vec p))
    ∧ (∀ c, e.orientedCurve = .BSplineCurve c →
      ∃ f n2 c1, tsweepEdge vec e n = some (f, n2)
        ∧ f.surf = .BSplineSurface (homotopyP c c1))
    ∧ (∀ h, e.orientedCurve = .NurbsCurve h →
      ∃ f n2 h1, tsweepEdge vec e n = some (f, n2)
        ∧ f.surf = .NurbsSurface (homotopyH h h1))
    ∧ (e.orientedCurve = .IntersectionCurve → tsweepEdge vec e n = none) := by
  refine ⟨?_, ?_, ?_, ?_⟩
  · rintro ⟨p, q, h⟩
    simp only [tsweepEdge, sweepEdge]
    rw [orientedCurve_translated_copy, h]
    exact ⟨_, _, p, q, rfl, rfl, rfl⟩
  · intro c h
    simp only [tsweepEdge, sweepEdge]
    rw [orientedCurve_translated_copy, h]
    exact ⟨_, _, _, rfl, rfl⟩
  · intro h hh
    simp only [tsweepEdge, sweepEdge]
    rw [orientedCurve_translated_copy, hh]
    cases h with
    | explicitH ks cs => exact ⟨_, _, _, rfl, rfl⟩
    | ofArc p o ax a i => exact ⟨_, _, _, rfl, rfl⟩
  · intro h
    simp only [tsweepEdge, sweepEdge]
    rw [orientedCurve_translated_copy, h]
    rfl

/-- An edge carrying an intersection curve, for the `tsweep` edge case. -/
def icEdge : Edge := ⟨0, dummyVertex, ⟨1, dummyPt⟩, .IntersectionCurve, true⟩

/-- Counterexample to C6 as stated: sweeping an edge whose rails are
intersection curves produces no surface at all (the source arm is
unimplemented and diverges), not a ruled lofting surface. -/
theorem C6_counterexample :
    tsweepEdge ⟨1, 0, 0⟩ icEdge 10 = none
    ∧ ¬ ∃ f n2, tsweepEdge ⟨1, 0, 0⟩ icEdge 10 = some (f, n2) := by
  refine ⟨rfl, ?_⟩
  rintro ⟨f, n2, hh⟩
  rw [show tsweepEdge ⟨1, 0, 0⟩ icEdge 10 = none from rfl] at hh
  exact Option.noConfusion hh

/-- A concrete line edge for the C6 witness. -/
def lineEdgeW : Edge :=
  ⟨2, ⟨0, .base ⟨0, 0, 0⟩⟩, ⟨1, .base ⟨1, 0, 0⟩⟩, .Line (.base ⟨0, 0, 0⟩) (.base ⟨1, 0, 0⟩), true⟩

/-- Witness for C6: a concrete line edge swept by translation gets a plane
through the line and its translate. -/
theorem C6_tsweep_surface_witness :
    (∃ p q, lineEdgeW.orientedCurve = .Line p q)
    ∧ ∃ f n2 p q, tsweepEdge ⟨0, 1, 0⟩ lineEdgeW 10 = some (f, n2)
        ∧ lineEdgeW.orientedCurve = .Line p q
        ∧ f.surf = .Plane p q (.translated ⟨0, 1, 0⟩ p) :=
  ⟨⟨.base ⟨0, 0, 0⟩, .base ⟨1, 0, 0⟩, rfl⟩,
   (C6_tsweep_surface ⟨0, 1, 0⟩ lineEdgeW 10).1 ⟨.base ⟨0, 0, 0⟩, .base ⟨1, 0, 0⟩, rfl⟩⟩

/-- Invariant of the memoization map: every stored connecting edge is
positively oriented and carries a curve built by the connecting-curve
constructor. -/
def VemapGood (cp : Pt → Pt → Curve) (m : VEMap) : Prop :=
  ∀ kv ∈ m, kv.2.ori = true ∧ ∃ a b, kv.2.curve = cp a b

/-- The empty map satisfies the invariant. -/
theorem vemapGood_nil (cp : Pt → Pt → Curve) : VemapGood cp [] := by
  intro kv hkv
  exact absurd hkv (List.not_mem_nil kv)

/-- Get-or-insert returns an edge satisfying the invariant and preserves it. -/
theorem entryOrInsert_good (cp : Pt → Pt → Curve) (v0 v1 : Vertex) (m : VEMap) (n : ℕ)
    (hm : VemapGood cp m) :
    ((entryOrInsert cp v0 v1 m n).1.ori = true
      ∧ ∃ a b, (entryOrInsert cp v0 v1 m n).1.curve = cp a b)
    ∧ VemapGood cp (entryOrInsert cp v0 v1 m n).2.1 := by
  unfold entryOrInsert
  cases hf : findPair (v0.id, v1.id) m with
  | some e =>
      simp only [hf]
      have hmem : ∃ kv ∈ m, kv.2 = e := by
        unfold findPair at hf
        cases hfind : m.find? (fun kv => kv.1 = (v0.id, v1.id)) with
        | none => rw [hfind] at hf; exact absurd hf (by simp)
        | some kv =>
            rw [hfind] at hf
            simp at hf
            exact ⟨kv, List.mem_of_find?_eq_some hfind, hf⟩
      obtain ⟨kv, hkv, hkve⟩ := hmem
      exact ⟨hkve ▸ hm kv hkv, hm⟩
  | none =>
      simp only [hf]
      refine ⟨⟨rfl, v0.pt, v1.pt, rfl⟩, ?_⟩
      intro kv hkv
      rcases List.mem_append.1 hkv with h | h
      · exact hm kv h
      · simp only [List.mem_singleton] at h
        subst h
        exact ⟨rfl, v0.pt, v1.pt, rfl⟩

/-- Shape of the face built by `connectEdges`: the boundary
`[e0, e3, e1.inverse, e2]` with memoized connecting edges, and the surface
from the two oriented curves. -/
theorem connectEdges_shape (cp : Pt → Pt → Curve) (cs : Curve → Curve → Surface)
    (e0 e1 : Edge) (m : VEMap) (n : ℕ) (hm : VemapGood cp m) :
    ∃ e2 e3,
      (connectEdges cp cs e0 e1 m n).1 =
        ⟨[[e0, e3, e1.inverseE, e2]], cs e0.orientedCurve e1.orientedCurve, true⟩
      ∧ e3.ori = true ∧ (∃ a b, e3.curve = cp a b)
      ∧ e2.ori = false ∧ (∃ a b, e2.curve = cp a b)
      ∧ VemapGood cp (connectEdges cp cs e0 e1 m n).2.1 := by
  obtain ⟨⟨ho2, hc2⟩, hm1⟩ := entryOrInsert_good cp e0.front e1.front m n hm
  obtain ⟨⟨ho3, hc3⟩, hm2⟩ :=
    entryOrInsert_good cp e0.back e1.back (entryOrInsert cp e0.front e1.front m n).2.1
      (entryOrInsert cp e0.front e1.front m n).2.2 hm1
  refine ⟨(entryOrInsert cp e0.front e1.front m n).1.inverseE,
    (entryOrInsert cp e0.back e1.back (entryOrInsert cp e0.front e1.front m n).2.1
      (entryOrInsert cp e0.front e1.front m n).2.2).1, rfl, ho3, hc3, ?_, hc2, hm2⟩
  simp [Edge.inverseE, ho2]

/-- Lengths: `connectWires` pairs corresponding edges. -/
theorem connectWires_length (cp : Pt → Pt → Curve) (cs : Curve → Curve → Surface) :
    ∀ (es0 es1 : Wire) (m : VEMap) (n : ℕ),
      (connectWires cp cs es0 es1 m n).1.length = min es0.length es1.length := by
  intro es0
  induction es0 with
  | nil => intro es1 m n; cases es1 <;> simp [connectWires]
  | cons e0 es0 ih =>
      intro es1 m n
      cases es1 with
      | nil => simp [connectWires]
      | cons e1 es1 => simp [connectWires, ih, Nat.succ_min_succ]

/-- Positional shape of the faces of `connectWires`. -/
theorem connectWires_get (cp : Pt → Pt → Curve) (cs : Curve → Curve → Surface) :
    ∀ (es0 es1 : Wire) (m : VEMap) (n : ℕ) (j : ℕ), VemapGood cp m →
      j < es0.length → j < es1.length →
      ∃ e2 e3,
        ((connectWires cp cs es0 es1 m n).1.getD j dummyFace) =
          ⟨[[es0.getD j dummyEdge, e3, (es1.getD j dummyEdge).inverseE, e2]],
           cs (es0.getD j dummyEdge).orientedCurve (es1.getD j dummyEdge).orientedCurve, true⟩
        ∧ e3.ori = true ∧ (∃ a b, e3.curve = cp a b)
        ∧ e2.ori = false ∧ (∃ a b, e2.curve = cp a b) := by
  intro es0
  induction es0 with
  | nil => intro es1 m n j _ h0 _; exact absurd h0 (by simp)
  | cons e0 es0 ih =>
      intro es1 m n j hm h0 h1
      cases es1 with
      | nil => exact absurd h1 (by simp)
      | cons e1 es1 =>
          cases j with
          | zero =>
              obtain ⟨e2, e3, hface, h3o, h3c, h2o, h2c, _⟩ :=
                connectEdges_shape cp cs e0 e1 m n hm
              refine ⟨e2, e3, ?_, h3o, h3c, h2o, h2c⟩
              simpa [connectWires] using hface
          | succ j =>
              obtain ⟨_, _, _, _, _, _, _, hm2⟩ := connectEdges_shape cp cs e0 e1 m n hm
              have hrec := ih es1 (connectEdges cp cs e0 e1 m n).2.1
                (connectEdges cp cs e0 e1 m n).2.2 j hm2 (by simpa using h0) (by simpa using h1)
              simpa [connectWires] using hrec

/-- Every face of `connectWires` has the four-edge homotopy boundary and
the surface built from its rails' oriented curves. -/
theorem connectWires_mem (cp : Pt → Pt → Curve) (cs : Curve → Curve → Surface) :
    ∀ (es0 es1 : Wire) (m : VEMap) (n : ℕ) (f : Face), VemapGood cp m →
      f ∈ (connectWires cp cs es0 es1 m n).1 →
      ∃ (e0 e1 e2 e3 : Edge),
        f = ⟨[[e0, e3, e1.inverseE, e2]], cs e0.orientedCurve e1.orientedCurve, true⟩
        ∧ (∃ a b, e3.curve = cp a b) := by
  intro es0
  induction es0 with
  | nil => intro es1 m n f _ hf; cases es1 <;> simp [connectWires] at hf
  | cons e0 es0 ih =>
      intro es1 m n f hm hf
      cases es1 with
      | nil => simp [connectWires] at hf
      | cons e1 es1 =>
          simp only [connectWires, List.mem_cons] at hf
          rcases hf with hf | hf
          · obtain ⟨e2, e3, hface, _, h3c, _, _, _⟩ := connectEdges_shape cp cs e0 e1 m n hm
            exact ⟨e0, e1, e2, e3, hf ▸ hface, h3c⟩
          · obtain ⟨_, _, _, _, _, _, _, hm2⟩ := connectEdges_shape cp cs e0 e1 m n hm
            exact ih es1 _ _ f hm2 hf

/-- The topological clone of a wire has the same number of edges. -/
theorem mappedWire_length (pmap : Pt → Pt) (cmap : Curve → Curve) :
    ∀ (es : Wire) (m : VMap) (n : ℕ), (mappedWire pmap cmap es m n).1.length = es.length := by
  intro es
  induction es with
  | nil => intro m n; rfl
  | cons e es ih => intro m n; simp [mappedWire, ih]

/-- A sweep over `k` subdivision steps of a wire of `L` edges yields
`k * L` faces. -/
theorem sweepColumns_length (pmap : Pt → Pt) (cmap : Curve → Curve) (cp : Pt → Pt → Curve)
    (cs : Curve → Curve → Surface) (worig : Wire) (closed : Bool) (L : ℕ)
    (hw : worig.length = L) :
    ∀ (k : ℕ) (cur : Wire) (n : ℕ), cur.length = L →
      (sweepColumns pmap cmap cp cs worig closed k cur n).1.length = k * L := by
  intro k
  induction k with
  | zero => intro cur n _; simp [sweepColumns]
  | succ k ih =>
      intro cur n hc
      have hnw : (if closed && k = 0 then (worig, n)
          else mappedWire pmap cmap cur [] n).1.length = L := by
        split
        · exact hw
        · rw [mappedWire_length]; exact hc
      simp only [sweepColumns, List.length_append]
      rw [connectWires_length, ih _ _ hnw, hc, hnw]
      simp [Nat.succ_mul, Nat.mul_comm, Nat.add_comm]

/-- Every face produced by a multi-step sweep of a wire has the four-edge
homotopy boundary, a surface built by the step's surface closure from its
rails, and a memoized connecting edge built by the step's connecting-curve
closure. -/
theorem sweepColumns_mem (pmap : Pt → Pt) (cmap : Curve → Curve) (cp : Pt → Pt → Curve)
    (cs : Curve → Curve → Surface) (worig : Wire) (closed : Bool) :
    ∀ (k : ℕ) (cur : Wire) (n : ℕ) (f : Face),
      f ∈ (sweepColumns pmap cmap cp cs worig closed k cur n).1 →
      ∃ (e0 e1 e2 e3 : Edge),
        f = ⟨[[e0, e3, e1.inverseE, e2]], cs e0.orientedCurve e1.orientedCurve, true⟩
        ∧ (∃ a b, e3.curve = cp a b) := by
  intro k
  induction k with
  | zero => intro cur n f hf; simp [sweepColumns] at hf
  | succ k ih =>
      intro cur n f hf
      simp only [sweepColumns, List.mem_append] at hf
      rcases hf with hf | hf
      · exact connectWires_mem cp cs cur _ [] _ f (vemapGood_nil cp) hf
      · exact ih _ _ f hf

/-- Decomposition of a closed sweep: the shell is a prefix of `(k-1) * L`
faces followed by the faces of the last step, which connects its current
wire copy back to the original wire itself. -/
theorem sweepColumns_last_decomp (pmap : Pt → Pt) (cmap : Curve → Curve) (cp : Pt → Pt → Curve)
    (cs : Curve → Curve → Surface) (worig : Wire) (L : ℕ) (_hw : worig.length = L) :
    ∀ (k : ℕ) (cur : Wire) (n : ℕ), 0 < k → cur.length = L →
      ∃ (pre : Shell) (curLast : Wire) (nl : ℕ),
        (sweepColumns pmap cmap cp cs worig true k cur n).1
          = pre ++ (connectWires cp cs curLast worig [] nl).1
        ∧ pre.length = (k - 1) * L ∧ curLast.length = L := by
  intro k
  induction k with
  | zero => intro cur n hk; exact absurd hk (by simp)
  | succ k ih =>
      intro cur n _ hc
      cases k with
      | zero =>
          refine ⟨[], cur, n, ?_, by simp, hc⟩
          simp [sweepColumns]
      | succ k =>
          have hnw : (mappedWire pmap cmap cur [] n).1.length = L := by
            rw [mappedWire_length]; exact hc
          obtain ⟨pre, curLast, nl, hdec, hpre, hlast⟩ :=
            ih (mappedWire pmap cmap cur [] n).1
              (connectWires cp cs cur (mappedWire pmap cmap cur [] n).1 []
                (mappedWire pmap cmap cur [] n).2).2.2 (by omega) hnw
          refine ⟨(connectWires cp cs cur (mappedWire pmap cmap cur [] n).1 []
              (mappedWire pmap cmap cur [] n).2).1 ++ pre, curLast, nl, ?_, ?_, hlast⟩
          · rw [show (sweepColumns pmap cmap cp cs worig true (k + 1 + 1) cur n).1
                = (connectWires cp cs cur (mappedWire pmap cmap cur [] n).1 []
                    (mappedWire pmap cmap cur [] n).2).1
                  ++ (sweepColumns pmap cmap cp cs worig true (k + 1)
                      (mappedWire pmap cmap cur [] n).1
                      (connectWires cp cs cur (mappedWire pmap cmap cur [] n).1 []
                        (mappedWire pmap cmap cur [] n).2).2.2).1 from by
              simp [sweepColumns]]
            rw [hdec, List.append_assoc]
          · rw [List.length_append, connectWires_length, hc, hnw, hpre]
            have h1 : k + 1 - 1 + 1 = k + 1 := by omega
            calc min L L + (k + 1 - 1) * L = L + (k + 1 - 1) * L := by simp
              _ = (k + 1 - 1) * L + L := by omega
              _ = (k + 1 - 1 + 1) * L := by rw [Nat.succ_mul]
              _ = (k + 1 + 1 - 1) * L := by
                    have h2 : k + 1 - 1 + 1 = k + 1 + 1 - 1 := by omega
                    rw [h2]


/-- C2: `try_wire_homotopy` fails with the mismatched-edge-count error
exactly when the two wires have different numbers of edges; with equal
counts it succeeds with one four-sided face per corresponding edge pair,
bounded by that pair and two connecting edges and carrying the lofting
surface of the pair's lifted curves. -/
theorem C2_try_wire_homotopy (w0 w1 : Wire) (n : ℕ) :
    ((try_wire_homotopy w0 w1 n).1 = .error .NotSameNumberOfEdges ↔ w0.length ≠ w1.length)
    ∧ (w0.length = w1.length →
        ∃ s, (try_wire_homotopy w0 w1 n).1 = .ok s ∧ s.length = w0.length
          ∧ ∀ j, j < w0.length →
              ∃ (e2 e3 : Edge),
                s.getD j dummyFace =
                  ⟨[[w0.getD j dummyEdge, e3, (w1.getD j dummyEdge).inverseE, e2]],
                   twhSurf (w0.getD j dummyEdge).orientedCurve
                     (w1.getD j dummyEdge).orientedCurve,
                   true⟩) := by
  constructor
  · by_cases hl : w0.length = w1.length
    · simp [try_wire_homotopy, hl]
    · simp [try_wire_homotopy, hl]
  · intro hl
    refine ⟨(connectWires (fun p q => .Line p q) twhSurf w0 w1 [] n).1, ?_, ?_, ?_⟩
    · simp [try_wire_homotopy, hl]
    · rw [connectWires_length, hl]; simp
    · intro j hj
      obtain ⟨e2, e3, hface, _⟩ :=
        connectWires_get (fun p q => .Line p q) twhSurf w0 w1 [] n j
          (vemapGood_nil _) hj (by omega)
      exact ⟨e2, e3, hface⟩

/-- First wire of the homotopy witness. -/
def twhW0 : Wire :=
  [⟨4, ⟨0, .base ⟨0, 0, 0⟩⟩, ⟨1, .base ⟨1, 0, 0⟩⟩, .Line (.base ⟨0, 0, 0⟩) (.base ⟨1, 0, 0⟩), true⟩]

/-- Second wire of the homotopy witness. -/
def twhW1 : Wire :=
  [⟨5, ⟨2, .base ⟨0, 1, 0⟩⟩, ⟨3, .base ⟨1, 1, 0⟩⟩, .Line (.base ⟨0, 1, 0⟩) (.base ⟨1, 1, 0⟩), true⟩]

/-- Witness for C2: two concrete one-edge wires of equal length loft into a
one-face shell. -/
theorem C2_try_wire_homotopy_witness :
    twhW0.length = twhW1.length
    ∧ ∃ s, (try_wire_homotopy twhW0 twhW1 20).1 = .ok s ∧ s.length = twhW0.length
        ∧ ∀ j, j < twhW0.length →
            ∃ (e2 e3 : Edge),
              s.getD j dummyFace =
                ⟨[[twhW0.getD j dummyEdge, e3, (twhW1.getD j dummyEdge).inverseE, e2]],
                 twhSurf (twhW0.getD j dummyEdge).orientedCurve
                   (twhW1.getD j dummyEdge).orientedCurve,
                 true⟩ :=
  ⟨rfl, (C2_try_wire_homotopy twhW0 twhW1 20).2 rfl⟩

/-- A strict comparison in one direction refutes the reflected non-strict
one. -/
theorem leB_false_of_ltB (a b : Fr) (h : a.ltB b = true) : b.leB a = false := by
  simp only [Fr.ltB, decide_eq_true_eq] at h
  simp only [Fr.leB, decide_eq_false_iff_not]
  omega

/-- Folding the sign into the angle leaves its absolute value unchanged:
`|angle * signum angle| = |angle|`. -/
theorem absF_mul_sgn (a : Fr) : (a * sgn a).absF = a.absF := by
  unfold sgn
  split
  · show (Fr.mul a (Fr.neg ⟨1, 1⟩)).absF = a.absF
    simp [Fr.mul, Fr.neg, Fr.absF, abs_mul]
  · show (Fr.mul a ⟨1, 1⟩).absF = a.absF
    simp [Fr.mul, Fr.absF, abs_mul]

/-- C1: for every wire and every angle of magnitude at least `2 pi`,
`rsweep` takes the whole-revolution path with the sign folded into the
axis, subdividing into exactly 3 steps regardless of the requested angle:
the shell has `3 * |wire|` faces, every face is a four-sided homotopy face
whose surface revolves its own rail about the fixed axis and whose
memoized connecting edge is a circular arc of span exactly `2 pi / 3`, and
the chain of faces is topologically closed: the faces of the last step are
bounded by the inverses of the original wire's own edges. -/
theorem C1_whole_revolution (w : Wire) (origin : Pt) (axis : Vec3) (angle : Fr) (n : ℕ)
    (h : (2 * piF).leB angle.absF = true) :
    rsweep w origin axis angle n = whole_rsweep w origin (Vec3.smul (sgn angle) axis) n
    ∧ (rsweep w origin axis angle n).1.length = 3 * w.length
    ∧ (∀ f ∈ (rsweep w origin axis angle n).1,
        ∃ (e0 e1 e2 e3 : Edge),
          f = ⟨[[e0, e3, e1.inverseE, e2]],
               .RevolutedCurve e0.orientedCurve origin (Vec3.smul (sgn angle) axis), true⟩
          ∧ ∃ p, e3.curve
              = Curve.circleArc p origin (Vec3.smul (sgn angle) axis) (piF * 2 / 3))
    ∧ (∀ j, j < w.length →
        (((rsweep w origin axis angle n).1.getD (2 * w.length + j) dummyFace).bnd.headD
            []).getD 2 dummyEdge
          = (w.getD j dummyEdge).inverseE) := by
  have hdisp : rsweep w origin axis angle n
      = whole_rsweep w origin (Vec3.smul (sgn angle) axis) n := by
    simp [rsweep, h]
  refine ⟨hdisp, ?_, ?_, ?_⟩
  · rw [hdisp]
    exact sweepColumns_length _ _ _ _ w true w.length rfl 3 w n rfl
  · rw [hdisp]
    intro f hf
    obtain ⟨e0, e1, e2, e3, hface, a, b, hcurve⟩ :=
      sweepColumns_mem _ _ _ _ w true 3 w n f hf
    exact ⟨e0, e1, e2, e3, hface, a, hcurve⟩
  · intro j hj
    rw [hdisp]
    obtain ⟨pre, curLast, nl, hdec, hpre, hlast⟩ :=
      sweepColumns_last_decomp
        (Pt.rotated origin (Vec3.smul (sgn angle) axis) (piF * 2 / 3))
        (Curve.rotatedC origin (Vec3.smul (sgn angle) axis) (piF * 2 / 3))
        (fun p _ => Curve.circleArc p origin (Vec3.smul (sgn angle) axis) (piF * 2 / 3))
        (fun c _ => Surface.RevolutedCurve c origin (Vec3.smul (sgn angle) axis))
        w w.length rfl 3 w n (by omega) rfl
    rw [show (whole_rsweep w origin (Vec3.smul (sgn angle) axis) n).1
        = pre ++ (connectWires
            (fun p _ => Curve.circleArc p origin (Vec3.smul (sgn angle) axis) (piF * 2 / 3))
            (fun c _ => Surface.RevolutedCurve c origin (Vec3.smul (sgn angle) axis))
            curLast w [] nl).1 from hdec]
    rw [List.getD_append_right _ _ _ _ (by omega)]
    obtain ⟨e2, e3, hface, _⟩ :=
      connectWires_get
        (fun p _ => Curve.circleArc p origin (Vec3.smul (sgn angle) axis) (piF * 2 / 3))
        (fun c _ => Surface.RevolutedCurve c origin (Vec3.smul (sgn angle) axis))
        curLast w [] nl j (vemapGood_nil _) (by omega) (by omega)
    rw [show 2 * w.length + j - pre.length = j from by omega, hface]
    rfl

/-- The witness wire for C1 and C5: a single line edge off the axis. -/
def rsweepExWire : Wire :=
  [⟨2, ⟨0, .base ⟨1, 0, 0⟩⟩, ⟨1, .base ⟨2, 0, 0⟩⟩, .Line (.base ⟨1, 0, 0⟩) (.base ⟨2, 0, 0⟩), true⟩]

/-- Witness for C1: a requested angle of 7 radians exceeds `2 pi`, and the
sweep of a one-edge wire yields exactly `3 * 1` faces. -/
theorem C1_whole_revolution_witness :
    (2 * piF).leB (7 : Fr).absF = true
    ∧ (rsweep rsweepExWire (.base ⟨0, 0, 0⟩) ⟨0, 0, 1⟩ 7 3).1.length = 3 * rsweepExWire.length :=
  ⟨by decide,
   (C1_whole_revolution rsweepExWire (.base ⟨0, 0, 0⟩) ⟨0, 0, 1⟩ 7 3 (by decide)).2.1⟩

/-- C5: for every wire and every angle of magnitude below `2 pi`, `rsweep`
takes the partial-revolution path with the sign folded into the axis and
the angle made non-negative; the revolution is subdivided into exactly 2
steps when the magnitude is below pi and exactly 3 otherwise, and the
surface attached to every step's face is a surface of revolution about the
fixed rotation origin and (sign-folded) axis. -/
theorem C5_partial_revolution (w : Wire) (origin : Pt) (axis : Vec3) (angle : Fr) (n : ℕ)
    (h : angle.absF.ltB (2 * piF) = true) :
    rsweep w origin axis angle n
      = partial_rsweep w origin (Vec3.smul (sgn angle) axis) (angle * sgn angle) n
    ∧ (rsweep w origin axis angle n).1.length
      = (if angle.absF.ltB piF then 2 else 3) * w.length
    ∧ ∀ f ∈ (rsweep w origin axis angle n).1,
        ∃ (c : Curve), f.surf = .RevolutedCurve c origin (Vec3.smul (sgn angle) axis) := by
  have hle : (2 * piF).leB angle.absF = false := leB_false_of_ltB _ _ h
  have hdisp : rsweep w origin axis angle n
      = partial_rsweep w origin (Vec3.smul (sgn angle) axis) (angle * sgn angle) n := by
    simp [rsweep, hle]
  have hmul : (angle * sgn angle).absF.ltB piF = angle.absF.ltB piF := by rw [absF_mul_sgn]
  refine ⟨hdisp, ?_, ?_⟩
  · rw [hdisp]
    unfold partial_rsweep
    rw [hmul]
    by_cases hp : angle.absF.ltB piF = true
    · simp only [hp, if_true]
      exact sweepColumns_length _ _ _ _ w false w.length rfl 2 w n rfl
    · rw [Bool.not_eq_true] at hp
      simp only [hp, Bool.false_eq_true, if_false]
      exact sweepColumns_length _ _ _ _ w false w.length rfl 3 w n rfl
  · rw [hdisp]
    unfold partial_rsweep
    intro f hf
    obtain ⟨e0, e1, e2, e3, hface, _⟩ := sweepColumns_mem _ _ _ _ w false _ w n f hf
    exact ⟨e0.orientedCurve, by rw [hface]⟩

/-- Witness for C5: a requested angle of 1 radian is below pi, and the
sweep of a one-edge wire yields exactly `2 * 1` faces. -/
theorem C5_partial_revolution_witness :
    (1 : Fr).absF.ltB (2 * piF) = true
    ∧ (rsweep rsweepExWire (.base ⟨0, 0, 0⟩) ⟨0, 0, 1⟩ 1 3).1.length
      = (if (1 : Fr).absF.ltB piF then 2 else 3) * rsweepExWire.length :=
  ⟨by decide,
   (C5_partial_revolution rsweepExWire (.base ⟨0, 0, 0⟩) ⟨0, 0, 1⟩ 1 3 (by decide)).2.1⟩

/-- A binding found in a map is still found after appending entries. -/
theorem findPair_append_left (k : ℕ × ℕ) (m l : VEMap) (e : Edge)
    (h : findPair k m = some e) : findPair k (m ++ l) = some e := by
  unfold findPair at h ⊢
  cases hf : m.find? (fun kv => kv.1 = k) with
  | none => rw [hf] at h; simp at h
  | some kv =>
      rw [hf] at h
      rw [List.find?_append, hf]
      simpa using h

/-- A key is absent exactly when no entry carries it. -/
theorem findPair_none_iff (k : ℕ × ℕ) (m : VEMap) :
    findPair k m = none ↔ ∀ kv ∈ m, kv.1 ≠ k := by
  simp [findPair, List.find?_eq_none]

/-- Get-or-insert preserves every existing binding. -/
theorem entryOrInsert_mono (cp : Pt → Pt → Curve) (v0 v1 : Vertex) (m : VEMap) (n : ℕ)
    (k : ℕ × ℕ) (e : Edge) (h : findPair k m = some e) :
    findPair k (entryOrInsert cp v0 v1 m n).2.1 = some e := by
  unfold entryOrInsert
  cases hf : findPair (v0.id, v1.id) m with
  | some _ => simpa using h
  | none => simp only [hf]; exact findPair_append_left k m _ e h

/-- After get-or-insert, the key is bound to the returned edge. -/
theorem entryOrInsert_self (cp : Pt → Pt → Curve) (v0 v1 : Vertex) (m : VEMap) (n : ℕ) :
    findPair (v0.id, v1.id) (entryOrInsert cp v0 v1 m n).2.1
      = some (entryOrInsert cp v0 v1 m n).1 := by
  unfold entryOrInsert
  cases hf : findPair (v0.id, v1.id) m with
  | some e => simpa using hf
  | none =>
      simp only [hf]
      have hfind : m.find? (fun kv => kv.1 = (v0.id, v1.id)) = none := by
        unfold findPair at hf
        exact Option.map_eq_none.mp hf
      unfold findPair
      rw [List.find?_append, hfind]
      simp

/-- Get-or-insert keeps the keys of the map duplicate-free: an entry is
added only when its key is absent. -/
theorem entryOrInsert_nodup (cp : Pt → Pt → Curve) (v0 v1 : Vertex) (m : VEMap) (n : ℕ)
    (h : (m.map Prod.fst).Nodup) :
    ((entryOrInsert cp v0 v1 m n).2.1.map Prod.fst).Nodup := by
  unfold entryOrInsert
  cases hf : findPair (v0.id, v1.id) m with
  | some e => simpa using h
  | none =>
      simp only [hf, List.map_append]
      rw [List.nodup_append]
      refine ⟨h, List.nodup_singleton _, ?_⟩
      intro x hx hx2
      simp only [List.map_cons, List.map_nil, List.mem_singleton] at hx2
      subst hx2
      obtain ⟨kv, hkv, hkvx⟩ := List.mem_map.1 hx
      exact absurd hkvx ((findPair_none_iff _ m).mp hf kv hkv)

/-- Get-or-insert keeps every entry keyed by the ordered identity pair of
the edge's stored ends, the edge positively oriented. -/
theorem entryOrInsert_keyed (cp : Pt → Pt → Curve) (v0 v1 : Vertex) (m : VEMap) (n : ℕ)
    (h : ∀ kv ∈ m, kv.1 = (kv.2.v0.id, kv.2.v1.id) ∧ kv.2.ori = true) :
    ∀ kv ∈ (entryOrInsert cp v0 v1 m n).2.1,
      kv.1 = (kv.2.v0.id, kv.2.v1.id) ∧ kv.2.ori = true := by
  unfold entryOrInsert
  cases hf : findPair (v0.id, v1.id) m with
  | some e => simpa using h
  | none =>
      simp only [hf]
      intro kv hkv
      rcases List.mem_append.1 hkv with hkv | hkv
      · exact h kv hkv
      · simp only [List.mem_singleton] at hkv
        subst hkv
        exact ⟨rfl, rfl⟩

/-- `connectEdges` preserves every existing binding of the map. -/
theorem connectEdges_mono (cp : Pt → Pt → Curve) (cs : Curve → Curve → Surface)
    (e0 e1 : Edge) (m : VEMap) (n : ℕ) (k : ℕ × ℕ) (e : Edge)
    (h : findPair k m = some e) :
    findPair k (connectEdges cp cs e0 e1 m n).2.1 = some e :=
  entryOrInsert_mono cp e0.back e1.back _ _ k e
    (entryOrInsert_mono cp e0.front e1.front m n k e h)

/-- `connectWires` preserves every existing binding of the map. -/
theorem connectWires_mono (cp : Pt → Pt → Curve) (cs : Curve → Curve → Surface) :
    ∀ (es0 es1 : Wire) (m : VEMap) (n : ℕ) (k : ℕ × ℕ) (e : Edge),
      findPair k m = some e → findPair k (connectWires cp cs es0 es1 m n).2.1 = some e := by
  intro es0
  induction es0 with
  | nil => intro es1 m n k e h; cases es1 <;> simpa [connectWires] using h
  | cons e0 es0 ih =>
      intro es1 m n k e h
      cases es1 with
      | nil => simpa [connectWires] using h
      | cons e1 es1 =>
          simp only [connectWires]
          exact ih es1 _ _ k e (connectEdges_mono cp cs e0 e1 m n k e h)

/-- `connectWires` keeps the keys of the map duplicate-free and every entry
keyed by the ordered identity pair of its edge's stored ends. -/
theorem connectWires_invariants (cp : Pt → Pt → Curve) (cs : Curve → Curve → Surface) :
    ∀ (es0 es1 : Wire) (m : VEMap) (n : ℕ),
      (m.map Prod.fst).Nodup →
      (∀ kv ∈ m, kv.1 = (kv.2.v0.id, kv.2.v1.id) ∧ kv.2.ori = true) →
      ((connectWires cp cs es0 es1 m n).2.1.map Prod.fst).Nodup
      ∧ ∀ kv ∈ (connectWires cp cs es0 es1 m n).2.1,
          kv.1 = (kv.2.v0.id, kv.2.v1.id) ∧ kv.2.ori = true := by
  intro es0
  induction es0 with
  | nil => intro es1 m n h1 h2; cases es1 <;> exact ⟨h1, h2⟩
  | cons e0 es0 ih =>
      intro es1 m n h1 h2
      cases es1 with
      | nil => exact ⟨h1, h2⟩
      | cons e1 es1 =>
          simp only [connectWires]
          apply ih
          · exact entryOrInsert_nodup cp e0.back e1.back _ _
              (entryOrInsert_nodup cp e0.front e1.front m n h1)
          · exact entryOrInsert_keyed cp e0.back e1.back _ _
              (entryOrInsert_keyed cp e0.front e1.front m n h2)

/-- The connecting edges of face `j` of `connectWires` are exactly the
bindings of its endpoint-pair keys in the final memoization map: the front
connector appears inverted at position 3, the back connector at position 1. -/
theorem connectWires_conn (cp : Pt → Pt → Curve) (cs : Curve → Curve → Surface) :
    ∀ (es0 es1 : Wire) (m : VEMap) (n : ℕ) (j : ℕ), j < es0.length → j < es1.length →
      ∃ ef eb,
        findPair ((es0.getD j dummyEdge).front.id, (es1.getD j dummyEdge).front.id)
          (connectWires cp cs es0 es1 m n).2.1 = some ef
        ∧ (((connectWires cp cs es0 es1 m n).1.getD j dummyFace).bnd.headD []).getD 3 dummyEdge
          = ef.inverseE
        ∧ findPair ((es0.getD j dummyEdge).back.id, (es1.getD j dummyEdge).back.id)
            (connectWires cp cs es0 es1 m n).2.1 = some eb
        ∧ (((connectWires cp cs es0 es1 m n).1.getD j dummyFace).bnd.headD []).getD 1 dummyEdge
          = eb := by
  intro es0
  induction es0 with
  | nil => intro es1 m n j h0 _; exact absurd h0 (by simp)
  | cons e0 es0 ih =>
      intro es1 m n j h0 h1
      cases es1 with
      | nil => exact absurd h1 (by simp)
      | cons e1 es1 =>
          cases j with
          | zero =>
              refine ⟨(entryOrInsert cp e0.front e1.front m n).1,
                (entryOrInsert cp e0.back e1.back (entryOrInsert cp e0.front e1.front m n).2.1
                  (entryOrInsert cp e0.front e1.front m n).2.2).1, ?_, ?_, ?_, ?_⟩
              · simp only [connectWires, List.getD_cons_zero]
                apply connectWires_mono cp cs es0 es1 _ _
                exact entryOrInsert_mono cp e0.back e1.back _ _ _ _
                  (entryOrInsert_self cp e0.front e1.front m n)
              · simp [connectWires, connectEdges]
              · simp only [connectWires, List.getD_cons_zero]
                apply connectWires_mono cp cs es0 es1 _ _
                exact entryOrInsert_self cp e0.back e1.back _ _
              · simp [connectWires, connectEdges]
          | succ j =>
              have hrec := ih es1 (connectEdges cp cs e0 e1 m n).2.1
                (connectEdges cp cs e0 e1 m n).2.2 j (by simpa using h0) (by simpa using h1)
              simpa [connectWires] using hrec

/-- C3 (amended): during one call of `try_wire_homotopy` the connecting
edges are memoized in a call-scoped map keyed by the ORDERED identity pair
(wire0-vertex, wire1-vertex): the produced shell is the `connectWires` run
over the fresh map; the final map binds each ordered key at most once (its
keys are duplicate-free) and every entry is the positively oriented edge
between exactly the keyed vertices; and adjacent faces reuse exactly the
memoized edge — the front connector of face `j+1` is the inverse of the
back connector of face `j` whenever the wires chain at that position. -/
theorem C3_ordered_pair_memoization (w0 w1 : Wire) (n : ℕ) (hl : w0.length = w1.length) :
    ((try_wire_homotopy w0 w1 n).1
      = .ok (connectWires (fun p q => .Line p q) twhSurf w0 w1 [] n).1)
    ∧ (((connectWires (fun p q => .Line p q) twhSurf w0 w1 [] n).2.1.map Prod.fst).Nodup)
    ∧ (∀ kv ∈ (connectWires (fun p q => .Line p q) twhSurf w0 w1 [] n).2.1,
        kv.1 = (kv.2.v0.id, kv.2.v1.id) ∧ kv.2.ori = true)
    ∧ (∀ j, j + 1 < w0.length →
        (w0.getD j dummyEdge).back.id = (w0.getD (j + 1) dummyEdge).front.id →
        (w1.getD j dummyEdge).back.id = (w1.getD (j + 1) dummyEdge).front.id →
        ((((connectWires (fun p q => .Line p q) twhSurf w0 w1 [] n).1.getD (j + 1)
            dummyFace).bnd.headD []).getD 3 dummyEdge)
          = (((((connectWires (fun p q => .Line p q) twhSurf w0 w1 [] n).1.getD j
              dummyFace).bnd.headD []).getD 1 dummyEdge)).inverseE) := by
  obtain ⟨hnodup, hkeyed⟩ :=
    connectWires_invariants (fun p q => .Line p q) twhSurf w0 w1 [] n
      (by simp) (by intro kv hkv; exact absurd hkv (List.not_mem_nil kv))
  refine ⟨by simp [try_wire_homotopy, hl], hnodup, hkeyed, ?_⟩
  intro j hj h0 h1
  obtain ⟨ef1, eb1, hf1, hface31, hb1, hface11⟩ :=
    connectWires_conn (fun p q => .Line p q) twhSurf w0 w1 [] n (j + 1) hj (by omega)
  obtain ⟨ef0, eb0, hf0, hface30, hb0, hface10⟩ :=
    connectWires_conn (fun p q => .Line p q) twhSurf w0 w1 [] n j (by omega) (by omega)
  rw [hface31, hface10]
  have hkey : ((w0.getD (j + 1) dummyEdge).front.id, (w1.getD (j + 1) dummyEdge).front.id)
      = ((w0.getD j dummyEdge).back.id, (w1.getD j dummyEdge).back.id) := by
    rw [h0, h1]
  rw [hkey] at hf1
  rw [hf1] at hb0
  exact congrArg Edge.inverseE (Option.some.inj hb0)

/-- Vertices of the C3 counterexample: the same two vertices appear in both
wires, in both orders. -/
def dupVa : Vertex := ⟨0, .base ⟨0, 0, 0⟩⟩

/-- Second vertex of the C3 counterexample. -/
def dupVb : Vertex := ⟨1, .base ⟨1, 0, 0⟩⟩

/-- First wire of the C3 counterexample: a two-edge loop from `dupVa`. -/
def dupW0 : Wire :=
  [⟨2, dupVa, dupVb, .Line dupVa.pt dupVb.pt, true⟩,
   ⟨3, dupVb, dupVa, .Line dupVb.pt dupVa.pt, true⟩]

/-- Second wire of the C3 counterexample: the same loop from `dupVb`. -/
def dupW1 : Wire :=
  [⟨4, dupVb, dupVa, .Line dupVb.pt dupVa.pt, true⟩,
   ⟨5, dupVa, dupVb, .Line dupVa.pt dupVb.pt, true⟩]

/-- The shell of the C3 counterexample run. -/
def dupShell : Shell :=
  match (try_wire_homotopy dupW0 dupW1 6).1 with
  | .ok s => s
  | .error _ => []

/-- The back connector of the first counterexample face. -/
def dupConn1 : Edge := ((dupShell.getD 0 dummyFace).bnd.headD []).getD 1 dummyEdge

/-- The front connector of the first counterexample face. -/
def dupConn2 : Edge := ((dupShell.getD 0 dummyFace).bnd.headD []).getD 3 dummyEdge

/-- Counterexample to C3 as stated: the memoization key is the ordered
pair, not an unordered (sorted) one — on wires where the same two vertices
meet in both orders, one call of `try_wire_homotopy` creates two distinct
connecting edge objects (fresh identities 7 and 6, both at least 6, so
neither is an input edge) between the same two vertices 0 and 1. -/
theorem C3_counterexample :
    dupConn1.id ≠ dupConn2.id
    ∧ 6 ≤ dupConn1.id ∧ 6 ≤ dupConn2.id
    ∧ dupConn1.front.id = 1 ∧ dupConn1.back.id = 0
    ∧ dupConn2.front.id = 1 ∧ dupConn2.back.id = 0 := by
  decide

/-- First wire of the C3 witness: two chained edges. -/
def sqW0 : Wire :=
  [⟨6, ⟨0, .base ⟨0, 0, 0⟩⟩, ⟨1, .base ⟨1, 0, 0⟩⟩, .Line (.base ⟨0, 0, 0⟩) (.base ⟨1, 0, 0⟩), true⟩,
   ⟨7, ⟨1, .base ⟨1, 0, 0⟩⟩, ⟨2, .base ⟨2, 0, 0⟩⟩, .Line (.base ⟨1, 0, 0⟩) (.base ⟨2, 0, 0⟩), true⟩]

/-- Second wire of the C3 witness: two chained edges. -/
def sqW1 : Wire :=
  [⟨8, ⟨3, .base ⟨0, 1, 0⟩⟩, ⟨4, .base ⟨1, 1, 0⟩⟩, .Line (.base ⟨0, 1, 0⟩) (.base ⟨1, 1, 0⟩), true⟩,
   ⟨9, ⟨4, .base ⟨1, 1, 0⟩⟩, ⟨5, .base ⟨2, 1, 0⟩⟩, .Line (.base ⟨1, 1, 0⟩) (.base ⟨2, 1, 0⟩), true⟩]

/-- Witness for the amended C3: on two concrete chained two-edge wires the
two faces share the single memoized connecting edge at their junction. -/
theorem C3_ordered_pair_memoization_witness :
    sqW0.length = sqW1.length
    ∧ ((((connectWires (fun p q => .Line p q) twhSurf sqW0 sqW1 [] 10).1.getD 1
          dummyFace).bnd.headD []).getD 3 dummyEdge)
        = (((((connectWires (fun p q => .Line p q) twhSurf sqW0 sqW1 [] 10).1.getD 0
            dummyFace).bnd.headD []).getD 1 dummyEdge)).inverseE :=
  ⟨rfl, (C3_ordered_pair_memoization sqW0 sqW1 10 rfl).2.2.2 0 (by decide) (by decide) (by decide)⟩

/-- C7: `try_attach_plane` fails distinctly for its two failure modes —
the not-coplanar error exactly when the plane fit over the lifted control
points fails (checked first), and the wrapped topology-layer not-closed
error exactly when the fit succeeds but some wire is not topologically
closed; it returns a face exactly when the fit succeeds and all wires are
closed, and any returned face carries a plane surface. -/
theorem C7_try_attach_plane (wires : List Wire) :
    (try_attach_plane wires = .error .WireNotInOnePlane
      ↔ attach_plane (ptsOfWires wires) = none)
    ∧ (try_attach_plane wires = .error (.FromTopology .NotClosedWire)
      ↔ ((attach_plane (ptsOfWires wires)).isSome = true
          ∧ ¬ wires.all Wire.isClosed = true))
    ∧ ((attach_plane (ptsOfWires wires)).isSome = true → wires.all Wire.isClosed = true →
        ∃ f, try_attach_plane wires = .ok f ∧ ∃ a b c, f.surf = .Plane a b c)
    ∧ (∀ f, try_attach_plane wires = .ok f → ∃ a b c, f.surf = .Plane a b c) := by
  rcases hap : attach_plane (ptsOfWires wires) with _ | pl
  · refine ⟨?_, ?_, ?_, ?_⟩
    · simp [try_attach_plane, hap]
    · simp [try_attach_plane, hap]
    · intro hs; simp [hap] at hs
    · intro f hf; simp [try_attach_plane, hap] at hf
  · by_cases hc : wires.all Wire.isClosed = true
    · refine ⟨?_, ?_, ?_, ?_⟩
      · simp [try_attach_plane, hap, Face.tryNew, hc]
      · simp [try_attach_plane, hap, Face.tryNew, hc]
      · intro _ _
        exact ⟨⟨wires, .Plane pl.1 pl.2.1 pl.2.2, true⟩,
          by simp [try_attach_plane, hap, Face.tryNew, hc], pl.1, pl.2.1, pl.2.2, rfl⟩
      · intro f hf
        simp only [try_attach_plane, hap, Face.tryNew, hc, if_true] at hf
        obtain rfl := Except.ok.inj hf
        exact ⟨pl.1, pl.2.1, pl.2.2, rfl⟩
    · refine ⟨?_, ?_, ?_, ?_⟩
      · simp [try_attach_plane, hap, Face.tryNew, hc]
      · simp [try_attach_plane, hap, Face.tryNew, hc]
      · intro _ hcc; exact absurd hcc hc
      · intro f hf
        simp [try_attach_plane, hap, Face.tryNew, hc] at hf

/-- A closed coplanar triangle wire for the C7 witness. -/
def triWire : Wire :=
  [⟨3, ⟨0, .base ⟨0, 0, 0⟩⟩, ⟨1, .base ⟨1, 0, 0⟩⟩, .Line (.base ⟨0, 0, 0⟩) (.base ⟨1, 0, 0⟩), true⟩,
   ⟨4, ⟨1, .base ⟨1, 0, 0⟩⟩, ⟨2, .base ⟨0, 1, 0⟩⟩, .Line (.base ⟨1, 0, 0⟩) (.base ⟨0, 1, 0⟩), true⟩,
   ⟨5, ⟨2, .base ⟨0, 1, 0⟩⟩, ⟨0, .base ⟨0, 0, 0⟩⟩, .Line (.base ⟨0, 1, 0⟩) (.base ⟨0, 0, 0⟩), true⟩]

/-- Witness for C7: a closed coplanar triangle admits the plane fit and
receives a planar face. -/
theorem C7_try_attach_plane_witness :
    (attach_plane (ptsOfWires [triWire])).isSome = true
    ∧ [triWire].all Wire.isClosed = true
    ∧ ∃ f, try_attach_plane [triWire] = .ok f ∧ ∃ a b c, f.surf = .Plane a b c :=
  ⟨by decide, by decide, (C7_try_attach_plane [triWire]).2.2.1 (by decide) (by decide)⟩
